import Mathlib

/-!
Verification development for the Vast.ai DeepFaceLab provisioning CLI
(file config/provisioning/vastai_dfl_cli.py).

The development shallowly embeds the resilience layer of that program:

1. the lenient JSON extraction path of VastAIClient.run (capture_json),
   together with the helpers VastAIClient._find_json_start and
   VastAIClient._extract_json_payload;
2. the outcome classification of VastAIClient.run and VastAIClient.stream
   (command composition, exit codes, error values);
3. the teardown logic of VastAIClient.stream;
4. the ownership resolver of VastAIDeepFaceLabCLI: _template_identifier,
   _ensure_user_id, _is_my_template, _remember_template,
   _attempt_template_query, _collect_owner_templates,
   _ensure_template_cache, _invalidate_template_cache and the
   cache-relevant part of _create_template.

Python dictionaries returned by the external tool are modelled as
association lists of scalar values; machine integers do not occur.
The Python json decoder is modelled for the JSON fragment without
floating point numbers (floats are not shallowly embeddable), without
the \u escape and without NaN or Infinity literals; all other behaviour
of json.JSONDecoder().raw_decode (strict strings, leading-zero rule for
numbers, trailing text ignored) is mirrored.
-/

/-- JSON values in the modelled fragment: numbers are integers. -/
inductive JVal where
  | null : JVal
  | bool (b : Bool) : JVal
  | num (n : Int) : JVal
  | str (s : String) : JVal
  | arr (l : List JVal) : JVal
  | obj (l : List (String × JVal)) : JVal
deriving Repr

/-- The whitespace characters recognised by the Python json module. -/
def wsChar (c : Char) : Bool :=
  c = ' ' ∨ c = '\t' ∨ c = '\n' ∨ c = '\r'

/-- Whitespace in the sense of Python str.strip and str.isspace
(ASCII part; the model does not cover exotic unicode whitespace). -/
def isPyWs (c : Char) : Bool :=
  c = ' ' ∨ c = '\t' ∨ c = '\n' ∨ c = '\r' ∨ c = '\x0b' ∨ c = '\x0c'

/-- ASCII decimal digit test, as used by the json number grammar. -/
def isDigitC (c : Char) : Bool :=
  c = '0' ∨ c = '1' ∨ c = '2' ∨ c = '3' ∨ c = '4' ∨
  c = '5' ∨ c = '6' ∨ c = '7' ∨ c = '8' ∨ c = '9'

/-- Numeric value of an ASCII digit. -/
def digitVal (c : Char) : Nat :=
  if c = '0' then 0 else if c = '1' then 1 else if c = '2' then 2
  else if c = '3' then 3 else if c = '4' then 4 else if c = '5' then 5
  else if c = '6' then 6 else if c = '7' then 7 else if c = '8' then 8
  else 9

/-- ASCII digit for a value below ten. -/
def digitChar (n : Nat) : Char :=
  if n = 0 then '0' else if n = 1 then '1' else if n = 2 then '2'
  else if n = 3 then '3' else if n = 4 then '4' else if n = 5 then '5'
  else if n = 6 then '6' else if n = 7 then '7' else if n = 8 then '8'
  else '9'

/-- Decimal digits of a natural number, most significant first; the
fuel keeps the recursion structural and n + 1 is always enough. -/
def natToCharsAux : Nat → Nat → List Char
  | 0, _ => []
  | f + 1, n =>
    if n < 10 then [digitChar n]
    else natToCharsAux f (n / 10) ++ [digitChar (n % 10)]

def natToChars (n : Nat) : List Char :=
  natToCharsAux (n + 1) n

/-- Decimal rendering of an integer, as Python str would produce it. -/
def intToChars (n : Int) : List Char :=
  if n < 0 then '-' :: natToChars n.natAbs else natToChars n.toNat

/-- Accumulate a digit list into a natural number. -/
def digitsToNat (ds : List Char) : Nat :=
  ds.foldl (fun a c => a * 10 + digitVal c) 0

/-- Skip json whitespace, as the json module between tokens. -/
def skipWs (cs : List Char) : List Char :=
  cs.dropWhile wsChar

/-- Unescape a single json backslash escape; the \u escape is outside
the modelled fragment. -/
def unescapeChar (c : Char) : Option Char :=
  if c = '"' then some '"'
  else if c = '\\' then some '\\'
  else if c = '/' then some '/'
  else if c = 'b' then some '\x08'
  else if c = 'f' then some '\x0c'
  else if c = 'n' then some '\n'
  else if c = 'r' then some '\r'
  else if c = 't' then some '\t'
  else none

/-- Parse the body of a json string after the opening quote, in strict
mode (raw control characters rejected), returning the decoded characters
and the remaining input. -/
def parseStringBody : List Char → Option (List Char × List Char)
  | [] => none
  | '"' :: rest => some ([], rest)
  | '\\' :: [] => none
  | '\\' :: e :: rest2 =>
    match unescapeChar e with
    | none => none
    | some d =>
      match parseStringBody rest2 with
      | none => none
      | some (s, r) => some (d :: s, r)
  | c :: rest =>
    if c.toNat < 32 then none
    else
      match parseStringBody rest with
      | none => none
      | some (s, r) => some (c :: s, r)

/-- Parse an unsigned json integer: a lone zero, or a nonzero digit
followed by digits (the json grammar forbids leading zeros, so 01
parses as 0 with remainder 1, as Python does). -/
def parseNumNat : List Char → Option (Nat × List Char)
  | [] => none
  | c :: rest =>
    if c = '0' then some (0, rest)
    else if isDigitC c then
      let p := rest.span isDigitC
      some (digitsToNat (c :: p.1), p.2)
    else none

/-- True when the next character would extend the number into a float
or exponent; such inputs are outside the modelled fragment. -/
def floatFollow : List Char → Bool
  | [] => false
  | c :: _ => c = '.' ∨ c = 'e' ∨ c = 'E'

/-- Parse a json number in the integer fragment. -/
def parseNum (cs : List Char) : Option (Int × List Char) :=
  match cs with
  | [] => none
  | c :: rest =>
    if c = '-' then
      match parseNumNat rest with
      | some (n, r) => if floatFollow r then none else some (-(n : Int), r)
      | none => none
    else
      match parseNumNat (c :: rest) with
      | some (n, r) => if floatFollow r then none else some ((n : Int), r)
      | none => none

mutual

/-- One json value at the start of the input (no leading whitespace
skipped), mirroring json.JSONDecoder().raw_decode via scan_once.
Fuel makes the recursion structural; rawDecode supplies enough. -/
def parseVal : Nat → List Char → Option (JVal × List Char)
  | 0, _ => none
  | _ + 1, [] => none
  | f + 1, c :: cs =>
    if c = '"' then
      match parseStringBody cs with
      | none => none
      | some (s, r) => some (.str (String.mk s), r)
    else if c = '\x7b' then
      match skipWs cs with
      | '\x7d' :: r => some (.obj [], r)
      | '"' :: r =>
        match parseMembers f r with
        | none => none
        | some (ps, r2) => some (.obj ps, r2)
      | _ => none
    else if c = '[' then
      match skipWs cs with
      | ']' :: r => some (.arr [], r)
      | cs1 =>
        match parseElems f cs1 with
        | none => none
        | some (vs, r2) => some (.arr vs, r2)
    else if c = 'n' then
      match cs with
      | 'u' :: 'l' :: 'l' :: r => some (.null, r)
      | _ => none
    else if c = 't' then
      match cs with
      | 'r' :: 'u' :: 'e' :: r => some (.bool true, r)
      | _ => none
    else if c = 'f' then
      match cs with
      | 'a' :: 'l' :: 's' :: 'e' :: r => some (.bool false, r)
      | _ => none
    else if c = '-' ∨ isDigitC c then
      match parseNum (c :: cs) with
      | none => none
      | some (n, r) => some (.num n, r)
    else none

/-- Members of a json object, entered after the opening quote of the
first key, returning the pair list and the input after the brace. -/
def parseMembers : Nat → List Char → Option (List (String × JVal) × List Char)
  | 0, _ => none
  | f + 1, cs =>
    match parseStringBody cs with
    | none => none
    | some (k, r1) =>
      match skipWs r1 with
      | ':' :: r2 =>
        match parseVal f (skipWs r2) with
        | none => none
        | some (v, r3) =>
          match skipWs r3 with
          | '\x7d' :: r4 => some ([(String.mk k, v)], r4)
          | ',' :: r4 =>
            match skipWs r4 with
            | '"' :: r5 =>
              match parseMembers f r5 with
              | none => none
              | some (ps, r6) => some ((String.mk k, v) :: ps, r6)
            | _ => none
          | _ => none
      | _ => none

/-- Elements of a nonempty json array, entered at the first value,
returning the elements and the input after the bracket. -/
def parseElems : Nat → List Char → Option (List JVal × List Char)
  | 0, _ => none
  | f + 1, cs =>
    match parseVal f cs with
    | none => none
    | some (v, r1) =>
      match skipWs r1 with
      | ']' :: r2 => some ([v], r2)
      | ',' :: r2 =>
        match parseElems f (skipWs r2) with
        | none => none
        | some (vs, r3) => some (v :: vs, r3)
      | _ => none

end

/-- Model of json.JSONDecoder().raw_decode applied at index zero:
decode one value, ignore any trailing text. -/
def rawDecode (cs : List Char) : Option JVal :=
  match parseVal (cs.length + 1) cs with
  | some (v, _) => some v
  | none => none

/-- The bracket-balance walk of VastAIClient._extract_json_payload:
push expected closers for openers, abort on mismatch or underflow,
and report the number of characters consumed when the stack empties. -/
def scanStack : List Char → List Char → Option Nat
  | _, [] => none
  | stack, c :: rest =>
    if c = '\x7b' then
      match scanStack ('\x7d' :: stack) rest with
      | none => none
      | some n => some (n + 1)
    else if c = '[' then
      match scanStack (']' :: stack) rest with
      | none => none
      | some n => some (n + 1)
    else if c = '\x7d' ∨ c = ']' then
      match stack with
      | [] => none
      | t :: stack2 =>
        if t = c then
          if stack2 = [] then some 1
          else
            match scanStack stack2 rest with
            | none => none
            | some n => some (n + 1)
        else none
    else
      match scanStack stack rest with
      | none => none
      | some n => some (n + 1)

/-- Balanced slice starting at a given index, as output[start : idx + 1]. -/
def extractFrom (cs : List Char) (start : Nat) : Option (List Char) :=
  match scanStack [] (cs.drop start) with
  | none => none
  | some n => some ((cs.drop start).take n)

/-- Model of VastAIClient._extract_json_payload: find the earliest
opening bracket, then take the shortest balanced slice from there. -/
def extractJsonPayload (cs : List Char) : Option (List Char) :=
  match cs.findIdx? (fun c => c = '['), cs.findIdx? (fun c => c = '\x7b') with
  | none, none => none
  | some a, none => extractFrom cs a
  | none, some b => extractFrom cs b
  | some a, some b => extractFrom cs (min a b)

/-- Model of VastAIClient._find_json_start: index of a bracket occurring
before the first non-space character, otherwise zero. -/
def findJsonStartAux : List Char → Nat → Nat
  | [], _ => 0
  | c :: rest, i =>
    if c = '\x7b' ∨ c = '[' then i
    else if isPyWs c then findJsonStartAux rest (i + 1)
    else 0

def findJsonStart (cs : List Char) : Nat :=
  findJsonStartAux cs 0

/-- Remove trailing Python whitespace. -/
def dropTrailingWs : List Char → List Char
  | [] => []
  | c :: rest =>
    let r := dropTrailingWs rest
    if r = [] ∧ isPyWs c then [] else c :: r

/-- Model of Python str.strip(). -/
def pyStrip (cs : List Char) : List Char :=
  dropTrailingWs (cs.dropWhile isPyWs)

/-- Python str.strip() on String values. -/
def pyStripStr (s : String) : String :=
  String.mk (pyStrip s.data)

/-- Result of the structured-output path of VastAIClient.run: either a
decoded json value or the (stripped) text returned unchanged. -/
inductive JOut where
  | json (v : JVal) : JOut
  | text (cs : List Char) : JOut
deriving Repr

/-- The capture_json branch of VastAIClient.run on the captured stdout:
strip; empty gives an empty mapping; otherwise slice at
_find_json_start, attempt raw_decode, fall back to the bracket-balance
extraction, and finally return the text unchanged. -/
def captureJson (stdout : String) : JOut :=
  let data := pyStrip stdout.data
  if data = [] then .json (.obj [])
  else
    let d2 := data.drop (findJsonStart data)
    match rawDecode d2 with
    | some v => .json v
    | none =>
      match extractJsonPayload d2 with
      | some cleaned =>
        match rawDecode cleaned with
        | some v => .json v
        | none => .text d2
      | none => .text d2

/-- Escape one character as json.dumps would (default ensure-ascii
behaviour is not modelled beyond the named escapes). -/
def escChar (c : Char) : List Char :=
  if c = '"' then ['\\', '"']
  else if c = '\\' then ['\\', '\\']
  else if c = '\n' then ['\\', 'n']
  else if c = '\t' then ['\\', 't']
  else if c = '\r' then ['\\', 'r']
  else if c = '\x08' then ['\\', 'b']
  else if c = '\x0c' then ['\\', 'f']
  else [c]

/-- Escape a character list. -/
def escList : List Char → List Char
  | [] => []
  | c :: cs => escChar c ++ escList cs

/-- Serialized form of a json string with its quotes. -/
def serStr (s : String) : List Char :=
  '"' :: escList s.data ++ ['"']

mutual

/-- Canonical serialization of a json value, with the default
json.dumps separators (comma-space and colon-space). -/
def serV : JVal → List Char
  | .bool true => ['t', 'r', 'u', 'e']
  | .bool false => ['f', 'a', 'l', 's', 'e']
  | .null => ['n', 'u', 'l', 'l']
  | .num n => intToChars n
  | .str s => serStr s
  | .arr [] => ['[', ']']
  | .arr (e :: es) => '[' :: serItems e es
  | .obj [] => ['\x7b', '\x7d']
  | .obj (p :: ps) => '\x7b' :: serPairs p ps
termination_by v => sizeOf v

/-- Elements of a nonempty array followed by the closing bracket. -/
def serItems : JVal → List JVal → List Char
  | e, [] => serV e ++ [']']
  | e, e2 :: es => serV e ++ ',' :: ' ' :: serItems e2 es
termination_by e es => sizeOf e + sizeOf es

/-- Members of a nonempty object followed by the closing brace. -/
def serPairs : String × JVal → List (String × JVal) → List Char
  | (k, v), [] => serStr k ++ ':' :: ' ' :: serV v ++ ['\x7d']
  | (k, v), p :: ps => serStr k ++ ':' :: ' ' :: serV v ++ ',' :: ' ' :: serPairs p ps
termination_by p ps => sizeOf p + sizeOf ps

end

/-- A string character that survives the serialize-parse round trip:
printable, or one of the escaped control characters. -/
def strOkChar (c : Char) : Bool :=
  decide (32 ≤ c.toNat) ∨ c = '\n' ∨ c = '\t' ∨ c = '\r' ∨ c = '\x08' ∨ c = '\x0c'

mutual

/-- All strings of the value contain only round-trippable characters. -/
def strOkV : JVal → Bool
  | .null => true
  | .bool _ => true
  | .num _ => true
  | .str s => s.data.all strOkChar
  | .arr l => strOkL l
  | .obj l => strOkP l

def strOkL : List JVal → Bool
  | [] => true
  | v :: vs => strOkV v && strOkL vs

def strOkP : List (String × JVal) → Bool
  | [] => true
  | (k, v) :: ps => k.data.all strOkChar && strOkV v && strOkP ps

end

/-- Not one of the four bracket characters the balance scan reacts to. -/
def noBrChar (c : Char) : Bool :=
  ¬(c = '[' ∨ c = ']' ∨ c = '\x7b' ∨ c = '\x7d')

mutual

/-- No string of the value contains a bracket character (so the
character-level balance scan of _extract_json_payload sees only the
structural brackets of the serialization). -/
def noBrV : JVal → Bool
  | .null => true
  | .bool _ => true
  | .num _ => true
  | .str s => s.data.all noBrChar
  | .arr l => noBrL l
  | .obj l => noBrP l

def noBrL : List JVal → Bool
  | [] => true
  | v :: vs => noBrV v && noBrL vs

def noBrP : List (String × JVal) → Bool
  | [] => true
  | (k, v) :: ps => k.data.all noBrChar && noBrV v && noBrP ps

end

mutual

/-- Fuel sufficient for parseVal to consume the serialization. -/
def fuelNeed : JVal → Nat
  | .bool _ => 1
  | .num _ => 1
  | .str _ => 1
  | .null => 1
  | .arr [] => 1
  | .arr (e :: es) => 1 + needElems e es
  | .obj [] => 1
  | .obj (p :: ps) => 1 + needMembers p ps
termination_by v => sizeOf v

def needElems : JVal → List JVal → Nat
  | e, [] => 1 + fuelNeed e
  | e, e2 :: es => 1 + fuelNeed e + needElems e2 es
termination_by e es => sizeOf e + sizeOf es

def needMembers : String × JVal → List (String × JVal) → Nat
  | (_, v), [] => 1 + fuelNeed v
  | (_, v), p :: ps => 1 + fuelNeed v + needMembers p ps
termination_by p ps => sizeOf p + sizeOf ps

end

/-- The value is an object or an array. -/
def isContainer : JVal → Bool
  | .arr _ => true
  | .obj _ => true
  | _ => false

/-- Characters that can begin a json value for the modelled scanner;
leading noise starting with anything else makes the direct decode fail. -/
def isValueStart (c : Char) : Bool :=
  c = '"' ∨ c = '\x7b' ∨ c = '[' ∨ c = 'n' ∨ c = 't' ∨ c = 'f' ∨ c = '-' ∨ isDigitC c

/-- The text after a serialized number must not continue the number. -/
def safeNumFollow : List Char → Bool
  | [] => true
  | c :: _ => !(isDigitC c || c = '.' || c = 'e' || c = 'E')

/-- Side condition of the round trip: only bare numbers constrain the
following text. -/
def numOk : JVal → List Char → Prop
  | .num _, rest => safeNumFollow rest = true
  | _, _ => True

/-- Error value raised as VastAICommandError: the composed command,
the exit code and the captured stderr. -/
structure CmdErr where
  command : List String
  exitCode : Int
  stderr : String
deriving Repr, DecidableEq

/-- Outcome of spawning the subprocess: the binary is missing
(FileNotFoundError), or the process completed with an exit code and
captured stdout and stderr. -/
inductive SpawnResult where
  | notFound : SpawnResult
  | completed (exitCode : Int) (stdout stderr : String) : SpawnResult
deriving Repr, DecidableEq

/-- Successful result of VastAIClient.run: raw stdout text, or the
structured-output value when capture_json was requested. -/
inductive RunOut where
  | rawText (s : String) : RunOut
  | structured (j : JOut) : RunOut
deriving Repr

/-- Model of VastAIClient._compose_command: binary, subcommand
arguments, then the raw flag and a trailing api-key flag when the
configured key is truthy. -/
def composeCommand (binary : String) (apiKey : Option String)
    (args : List String) (raw : Bool) : List String :=
  let c := binary :: args
  let c := if raw then c ++ ["--raw"] else c
  match apiKey with
  | some k => if k = "" then c else c ++ ["--api-key", k]
  | none => c

/-- Model of VastAIClient.run: compose the command (raw is forced by
capture_json), translate a missing binary into exit code 127, raise on
any nonzero exit code with stripped stderr, and otherwise return the
captured output, fed through the capture_json path when requested. -/
def runModel (binary : String) (apiKey : Option String) (args : List String)
    (raw captureJsonFlag : Bool) (spawn : SpawnResult) : Except CmdErr RunOut :=
  let command := composeCommand binary apiKey args (raw || captureJsonFlag)
  match spawn with
  | .notFound => .error ⟨command, 127, "vastai CLI not found in PATH"⟩
  | .completed code out err =>
    if code = 0 then
      .ok (if captureJsonFlag then .structured (captureJson out) else .rawText out)
    else .error ⟨command, code, pyStripStr err⟩

/-- The terminate-signal number used by VastAIClient.stream. -/
def sigtermCode : Int := 15

/-- Exit-code normalization and the failure check at the end of
VastAIClient.stream: a missing return code counts as zero, a
terminate-signal code after supervisor-initiated termination is
rewritten to zero, and anything outside zero and the terminate-signal
codes raises VastAICommandError with the captured stderr. -/
def streamFinalize (terminated : Bool) (returncode : Option Int)
    (command : List String) (stderrData : String) : Option CmdErr :=
  let code0 := match returncode with | some c => c | none => 0
  let code1 := if terminated ∧ (code0 = -sigtermCode ∨ code0 = 0) then 0 else code0
  if code1 = 0 ∨ code1 = -15 ∨ code1 = sigtermCode then none
  else some ⟨command, code1, pyStripStr stderrData⟩

/-- Abstract state of the streamed subprocess.  The model assumes that
a terminate signal may be ignored by the child but a kill is always
effective within its bounded wait; real operating-system timing is
outside the embedding. -/
structure ProcM where
  running : Bool
  acceptsTerm : Bool
deriving Repr, DecidableEq

/-- process.terminate(): stops the child only if it honours SIGTERM. -/
def terminateOp (p : ProcM) : ProcM :=
  if p.running ∧ p.acceptsTerm then { p with running := false } else p

/-- process.kill(): always stops the child. -/
def killOp (p : ProcM) : ProcM :=
  { p with running := false }

/-- The terminate, bounded wait, then kill escalation used both in the
KeyboardInterrupt handler and in the finally block of
VastAIClient.stream. -/
def gracefulStop (p : ProcM) : ProcM :=
  let p1 := terminateOp p
  if p1.running then killOp p1 else p1

/-- The ways a streaming session stops being observed: the line loop
ends (process closed its output or the completion marker made the
consumer break), the consumer abandons the generator, or a keyboard
interrupt arrives. -/
inductive StreamEnd where
  | exhausted : StreamEnd
  | closedByConsumer : StreamEnd
  | interrupted : StreamEnd
deriving Repr, DecidableEq

/-- Teardown of VastAIClient.stream for each way the session can end:
the interrupt handler stops the process itself, and the finally block
stops it whenever poll reports it alive. -/
def streamTeardown (reason : StreamEnd) (p : ProcM) : ProcM :=
  let pMid := match reason with
    | .interrupted => gracefulStop p
    | _ => p
  if pMid.running then gracefulStop pMid else pMid

/-- Scalar Python values occurring in the template records the
ownership resolver inspects.  vnone stands for Python None, which
dict.get also returns for an absent key; nested containers do not
occur in the fields the resolver reads and are not modelled. -/
inductive Val where
  | vnone : Val
  | vstr (s : String) : Val
  | vint (n : Int) : Val
  | vbool (b : Bool) : Val
deriving Repr, DecidableEq

/-- A template record: an association list from field names to values. -/
abbrev Record := List (String × Val)

/-- dict.get with default None. -/
def rget (r : Record) (k : String) : Val :=
  match r.find? (fun p => p.1 = k) with
  | some p => p.2
  | none => .vnone

/-- The Python `key in dict` test. -/
def rhas (r : Record) (k : String) : Bool :=
  r.any (fun p => p.1 = k)

/-- dict item assignment. -/
def rset (r : Record) (k : String) (v : Val) : Record :=
  if rhas r k then r.map (fun p => if p.1 = k then (k, v) else p)
  else r ++ [(k, v)]

/-- Python str() on the modelled scalars. -/
def pyStr : Val → String
  | .vnone => "None"
  | .vstr s => s
  | .vint n => String.mk (intToChars n)
  | .vbool b => if b then "True" else "False"

/-- Python truthiness on the modelled scalars. -/
def pyTruthy : Val → Bool
  | .vnone => false
  | .vstr s => s ≠ ""
  | .vint n => n ≠ 0
  | .vbool b => b

/-- Python `a or b`. -/
def pyOr (a b : Val) : Val :=
  if pyTruthy a then a else b

/-- First key of the fallback chain whose value is not None, rendered
with str(). -/
def idFromKeys (t : Record) : List String → Option String
  | [] => none
  | k :: ks =>
    match rget t k with
    | .vnone => idFromKeys t ks
    | v => some (pyStr v)

/-- Model of VastAIDeepFaceLabCLI._template_identifier: id, then
template_id, hash, uuid, and finally the name-image composite when
either part is truthy. -/
def templateIdentifier (t : Record) : Option String :=
  match idFromKeys t ["id", "template_id", "hash", "uuid"] with
  | some s => some s
  | none =>
    let name := rget t "name"
    let image := pyOr (rget t "image") (rget t "docker_image")
    if pyTruthy name ∨ pyTruthy image then
      some (pyStr name ++ "|" ++ pyStr image)
    else none

/-- The calls the resolver makes through the client, recorded so that
call counts are observable. -/
inductive Call where
  | showUserC : Call
  | searchC (q : String) : Call
  | showTemplatesC : Call
  | fetchAllC : Call
deriving Repr, DecidableEq

/-- Responses of the external tool, modelled after envelope coercion:
searchTemplates covers `search templates <query> --raw` (the result of
_coerce_template_list), showTemplates covers `show templates --raw`,
fetchAll covers the unfiltered `search templates --raw` listing, and
showUser covers `show user --raw` (none when the response is not a
mapping).  An error value stands for VastAICommandError. -/
structure Env where
  searchTemplates : String → Except Unit (List Record)
  showTemplates : Except Unit (List Record)
  fetchAll : Except Unit (List Record)
  showUser : Except Unit (Option Record)

/-- Mutable resolver state of VastAIDeepFaceLabCLI (the fields touched
by the ownership cache; sets are modelled as lists used only through
membership). -/
structure St where
  myCache : List Record
  otherCache : List Record
  cacheValid : Bool
  myIds : List String
  myNames : List String
  attempted : Bool
  userId : Option String
  ownerOverride : Option String
deriving Repr, DecidableEq

/-- Insert into a modelled set. -/
def pushSet (i : String) (s : List String) : List String :=
  if s.contains i then s else i :: s

/-- First of the id, user_id, userid keys present in the response,
rendered with str(). -/
def userIdFromKeys (r : Record) : List String → Option String
  | [] => none
  | k :: ks => if rhas r k then some (pyStr (rget r k)) else userIdFromKeys r ks

/-- Model of VastAIDeepFaceLabCLI._ensure_user_id: return the cached
id when one is stored; otherwise invoke `show user` once and store the
outcome.  A failed or id-less lookup stores None, which is
indistinguishable from the initial state. -/
def ensureUserId (env : Env) (st : St) : Option String × St × List Call :=
  match st.userId with
  | some u => (some u, st, [])
  | none =>
    match env.showUser with
    | .error _ => (none, { st with userId := none }, [.showUserC])
    | .ok none => (none, { st with userId := none }, [.showUserC])
    | .ok (some r) =>
      match userIdFromKeys r ["id", "user_id", "userid"] with
      | some s => (some s, { st with userId := some s }, [.showUserC])
      | none => (none, { st with userId := none }, [.showUserC])

/-- Truthiness of an explicit ownership flag: string values compare
their stripped lower-case form against the accepted spellings, other
values use plain truthiness. -/
def flagTruthy (v : Val) : Bool :=
  match v with
  | .vstr s => (pyStripStr s).toLower ∈ (["true", "1", "yes", "y"] : List String)
  | v => pyTruthy v

/-- Model of VastAIDeepFaceLabCLI._is_my_template: explicit flags,
identity membership, name membership, caller-id match (which may
trigger the user lookup), then override-id match. -/
def isMyTemplate (env : Env) (st : St) (t : Record) : Bool × St × List Call :=
  if (["is_owner", "mine", "owned", "is_mine", "my_template"] : List String).any
      (fun k => flagTruthy (rget t k)) then (true, st, [])
  else if (match templateIdentifier t with
           | some i => st.myIds.contains i
           | none => false) then (true, st, [])
  else if pyTruthy (rget t "name") && st.myNames.contains (pyStr (rget t "name")) then
    (true, st, [])
  else
    let u := ensureUserId env st
    let userMatched := match u.1 with
      | some uid => (["user_id", "owner_id", "creator_id", "created_by", "userid"] : List String).any
          (fun k => pyStr (rget t k) == uid)
      | none => false
    if userMatched then (true, u.2.1, u.2.2)
    else
      let ovMatched := match st.ownerOverride with
        | some ov => (["creator_id", "owner_id", "created_by", "user_id"] : List String).any
            (fun k => pyStr (rget t k) == ov)
        | none => false
      if ovMatched then (true, u.2.1, u.2.2) else (false, u.2.1, u.2.2)

/-- Model of VastAIDeepFaceLabCLI._extract_template_hash on scalar
records (the nested template and data branches read mapping values,
which do not occur among the modelled scalars). -/
def hashFromKeys (t : Record) : List String → Option String
  | [] => none
  | k :: ks =>
    let v := rget t k
    if pyTruthy v then
      let s := pyStripStr (pyStr v)
      if s = "" then hashFromKeys t ks else some s
    else hashFromKeys t ks

def extractTemplateHash (t : Record) : Option String :=
  hashFromKeys t ["template_hash", "hash", "hash_id", "templateHash", "hashId"]

/-- Model of VastAIDeepFaceLabCLI._remember_template: record the
identity and truthy name, and write the normalized template_hash back
into the record.  Returns the updated state and the updated record. -/
def rememberTemplate (st : St) (t : Record) : St × Record :=
  let ids1 := match templateIdentifier t with
    | some i => pushSet i st.myIds
    | none => st.myIds
  let names1 :=
    if pyTruthy (rget t "name") then pushSet (pyStr (rget t "name")) st.myNames
    else st.myNames
  let st1 := { st with myIds := ids1, myNames := names1 }
  match extractTemplateHash t with
  | some h => (st1, rset t "template_hash" (.vstr h))
  | none => (st1, t)

/-- Remember every record of a listing, in order. -/
def rememberAll (st : St) : List Record → St × List Record
  | [] => (st, [])
  | t :: ts =>
    let p := rememberTemplate st t
    let q := rememberAll p.1 ts
    (q.1, p.2 :: q.2)

/-- Model of VastAIDeepFaceLabCLI._attempt_template_query: a failed
query is swallowed as an empty result; a successful one is remembered
record by record. -/
def attemptTemplateQuery (env : Env) (st : St) (q : String) :
    List Record × St × List Call :=
  let pr := match env.searchTemplates q with
    | .error _ => ([], st)
    | .ok l =>
      let p := rememberAll st l
      (p.2, p.1)
  (pr.1, pr.2, [.searchC q])

/-- Dedup used inside _collect_owner_templates: key by identity, or by
a canonical dump of the record when no identity is derivable (stands
for json.dumps with sorted keys, used only as an opaque dedup key). -/
def recDump (r : Record) : String :=
  (r.map (fun p => p.1 ++ "=" ++ pyStr p.2)).foldl (fun a s => a ++ "|" ++ s) "R"

def dedupFold (seen : List String) (acc : List Record) :
    List Record → List String × List Record
  | [] => (seen, acc)
  | t :: ts =>
    let key := match templateIdentifier t with
      | some i => i
      | none => recDump t
    if seen.contains key then dedupFold seen acc ts
    else dedupFold (key :: seen) (acc ++ [t]) ts

def collectLoop (env : Env) (st : St) (queries : List String)
    (seen : List String) (acc : List Record) : List Record × St × List Call :=
  match queries with
  | [] => (acc, st, [])
  | q :: qs =>
    let a := attemptTemplateQuery env st q
    let d := dedupFold seen acc a.1
    let rest := collectLoop env a.2.1 qs d.1 d.2
    (rest.1, rest.2.1, a.2.2 ++ rest.2.2)

/-- Model of VastAIDeepFaceLabCLI._collect_owner_templates. -/
def collectOwnerTemplates (env : Env) (st : St) (ownerIdRaw : String) :
    List Record × St × List Call :=
  let oid := pyStripStr ownerIdRaw
  if oid = "" then ([], st, [])
  else collectLoop env st
    ["owner_id=" ++ oid, "creator_id=" ++ oid, "created_by=" ++ oid,
     "user_id=" ++ oid, "author_id=" ++ oid] [] []

/-- Order-preserving dedup, as dict.fromkeys. -/
def dedupOrderedAux (l : List String) (seen : List String) : List String :=
  match l with
  | [] => []
  | x :: xs => if seen.contains x then dedupOrderedAux xs seen
               else x :: dedupOrderedAux xs (x :: seen)

def dedupOrdered (l : List String) : List String :=
  dedupOrderedAux l []

def ownersLoop (env : Env) (st : St) : List String → List Record × St × List Call
  | [] => ([], st, [])
  | o :: os =>
    let a := collectOwnerTemplates env st o
    let b := ownersLoop env a.2.1 os
    (a.1 ++ b.1, b.2.1, a.2.2 ++ b.2.2)

/-- The one-time seeding block of _ensure_template_cache (lines under
`if not self._attempted_my_template_query`): the my=true query, the
per-owner-id query fan-out, and the `show templates` fallback when no
strategy produced records.  Failures of every strategy are swallowed. -/
def seedPhase (env : Env) (st : St) : List Record × St × List Call :=
  if st.attempted then ([], st, [])
  else
    let st0 := { st with attempted := true }
    let a := attemptTemplateQuery env st0 "my=true"
    let ownerIds0 := match st0.ownerOverride with
      | some ov => if ov = "" then [] else [ov]
      | none => []
    let u := ensureUserId env a.2.1
    let ownerIds1 := ownerIds0 ++ (match u.1 with
      | some s => if s = "" then [] else [s]
      | none => [])
    let c := ownersLoop env u.2.1 (dedupOrdered ownerIds1)
    let base := a.1 ++ c.1
    if base = [] then
      let fb := match env.showTemplates with
        | .error _ => []
        | .ok l => l
      (fb, c.2.1, a.2.2 ++ u.2.2 ++ c.2.2 ++ [.showTemplatesC])
    else (base, c.2.1, a.2.2 ++ u.2.2 ++ c.2.2)

/-- The loop over initial_my_templates: mark the identity as seen,
remember the record, and append it to my_templates unconditionally. -/
def seedLoop : List Record → St → List Record → List String →
    List Record × St × List String
  | [], st, my, seen => (my, st, seen)
  | t :: ts, st, my, seen =>
    let seen1 := match templateIdentifier t with
      | some i => pushSet i seen
      | none => seen
    let p := rememberTemplate st t
    seedLoop ts p.1 (my ++ [p.2]) seen1

/-- The partition loop over the full listing: dedup by identity
against seen, then classify each remaining record. -/
def partLoop (env : Env) : List Record → St → List Record → List Record →
    List String → List Record × List Record × St × List String × List Call
  | [], st, my, other, seen => (my, other, st, seen, [])
  | t :: ts, st, my, other, seen =>
    match templateIdentifier t with
    | some i =>
      if seen.contains i then partLoop env ts st my other seen
      else
        let c := isMyTemplate env st t
        if c.1 then
          let p := rememberTemplate c.2.1 t
          let r := partLoop env ts p.1 (my ++ [p.2]) other (i :: seen)
          (r.1, r.2.1, r.2.2.1, r.2.2.2.1, c.2.2 ++ r.2.2.2.2)
        else
          let r := partLoop env ts c.2.1 my (other ++ [t]) (i :: seen)
          (r.1, r.2.1, r.2.2.1, r.2.2.2.1, c.2.2 ++ r.2.2.2.2)
    | none =>
      let c := isMyTemplate env st t
      if c.1 then
        let p := rememberTemplate c.2.1 t
        let r := partLoop env ts p.1 (my ++ [p.2]) other seen
        (r.1, r.2.1, r.2.2.1, r.2.2.2.1, c.2.2 ++ r.2.2.2.2)
      else
        let r := partLoop env ts c.2.1 my (other ++ [t]) seen
        (r.1, r.2.1, r.2.2.1, r.2.2.2.1, c.2.2 ++ r.2.2.2.2)

/-- Model of VastAIDeepFaceLabCLI._ensure_template_cache.  A valid
cache is returned as is; otherwise the seeding phase runs, the full
listing is fetched (its failure propagates while the seeding effects
persist), the seeded records are enrolled, and the remaining listing
is partitioned.  The call trace is returned for observability. -/
def ensureTemplateCache (env : Env) (st : St) :
    Except Unit (List Record × List Record) × St × List Call :=
  if st.cacheValid then (.ok (st.myCache, st.otherCache), st, [])
  else
    let s := seedPhase env st
    match env.fetchAll with
    | .error e => (.error e, s.2.1, s.2.2 ++ [.fetchAllC])
    | .ok allT =>
      let sl := seedLoop s.1 s.2.1 [] []
      let pl := partLoop env allT sl.2.1 sl.1 [] sl.2.2
      let stf := { pl.2.2.1 with
        myCache := pl.1, otherCache := pl.2.1, cacheValid := true }
      (.ok (pl.1, pl.2.1), stf, s.2.2 ++ [.fetchAllC] ++ pl.2.2.2.2)

/-- Model of VastAIDeepFaceLabCLI._invalidate_template_cache. -/
def invalidateTemplateCache (st : St) : St :=
  { st with cacheValid := false, attempted := false,
            myCache := [], otherCache := [], myIds := [], myNames := [] }

/-- The cache-relevant tail of the successful path of
VastAIDeepFaceLabCLI._create_template: remember the parsed record (or
a name-only stub) and invalidate the cache. -/
def createTemplateSuccess (st : St) (name : String) (rec : Option Record) : St :=
  let t := match rec with
    | some r => r
    | none => [("name", Val.vstr name)]
  let p := rememberTemplate st t
  invalidateTemplateCache p.1

/-- Derivable identities of a record list. -/
def identsOf (l : List Record) : List String :=
  l.filterMap templateIdentifier

/-- Fresh resolver state as the constructor initialises it. -/
def stFresh : St :=
  ⟨[], [], false, [], [], false, none, none⟩

/-- Environment in which the `show user` lookup fails and every other
call yields an empty listing. -/
def envFailUser : Env :=
  ⟨fun _ => .ok [], .ok [], .ok [], .error ()⟩

/-- A record with identity 1. -/
def recA : Record := [("id", Val.vint 1)]

/-- A record with identity 2. -/
def recB : Record := [("id", Val.vint 2)]

/-- Environment in which both the my=true query and the owner_id=7
query return the same record, exercising the duplicate seeding path. -/
def envDup : Env :=
  ⟨fun q => if q = "my=true" then .ok [recA]
            else if q = "owner_id=7" then .ok [recA] else .ok [],
   .ok [], .ok [], .error ()⟩

/-- Fresh state with an owner-id override of 7. -/
def stOv : St := { stFresh with ownerOverride := some "7" }

/-- Environment whose full listing holds two distinct records and
whose seeding queries return nothing. -/
def envW : Env :=
  ⟨fun _ => .ok [], .ok [], .ok [recA, recB], .error ()⟩

/-- The record of the caller-id example: id 1, owner_id 42. -/
def tOwn : Record := [("id", Val.vint 1), ("owner_id", Val.vstr "42")]

/-- Fresh state whose cached caller id is 42. -/
def stU : St := { stFresh with userId := some "42" }

/-! Theorems. -/

/-- C10: whenever the structured-output path of VastAIClient.run sees a
subprocess that exited 0 with empty or whitespace-only stdout, it
returns the empty mapping, not the raw text and not an error. -/
theorem c10_emptyStdoutEmptyMapping (s : String) (h : pyStrip s.data = []) :
    captureJson s = .json (.obj []) := by
  simp [captureJson, h]

/-- Witness for C10 at a whitespace-only stdout. -/
theorem c10_witness :
    pyStrip (String.data "  \n") = [] ∧ captureJson "  \n" = .json (.obj []) :=
  ⟨rfl, c10_emptyStdoutEmptyMapping "  \n" rfl⟩

/-- C9: for every way a streaming session ends (line loop exhausted or
broken by the marker, consumer abandons the generator, keyboard
interrupt), the teardown of VastAIClient.stream leaves the child
process stopped.  The model grants that a kill is effective within its
bounded wait; each stream owns exactly one process handle. -/
theorem c9_teardownStopsProcess (reason : StreamEnd) (p : ProcM) :
    (streamTeardown reason p).running = false := by
  cases reason <;>
    simp only [streamTeardown, gracefulStop, terminateOp, killOp] <;>
    split_ifs <;> simp_all

/-- C3 evidence: with a failing `show user` call, two successive
invocations of _ensure_user_id both invoke the external tool (one
showUser call each) and both return the unknown caller id.  The claim
and spec say the lookup is performed at most once per process
lifetime; the None sentinel stored on failure is identical to the
initial state, so the failure is not cached. -/
theorem c3_failedLookupRetried :
    (ensureUserId envFailUser stFresh).1 = none ∧
    (ensureUserId envFailUser stFresh).2.2 = [Call.showUserC] ∧
    (ensureUserId envFailUser (ensureUserId envFailUser stFresh).2.1).1 = none ∧
    (ensureUserId envFailUser (ensureUserId envFailUser stFresh).2.1).2.2 =
      [Call.showUserC] :=
  ⟨rfl, rfl, rfl, rfl⟩

/-- C6: the finalization of VastAIClient.stream reports a
VastAICommandError exactly when the final exit code (a missing code
counting as 0) is neither 0 nor a terminate-signal code (negative
SIGTERM or SIGTERM itself); supervisor-initiated termination never
surfaces an error. -/
theorem c6_streamErrorIffExitCode (terminated : Bool) (rc : Option Int)
    (cmd : List String) (err : String) :
    (streamFinalize terminated rc cmd err).isSome = true ↔
      ¬(rc.getD 0 = 0 ∨ rc.getD 0 = -15 ∨ rc.getD 0 = 15) := by
  cases rc with
  | none => simp [streamFinalize, sigtermCode]
  | some c =>
    simp only [streamFinalize, sigtermCode, Option.getD_some]
    split_ifs <;> simp_all <;> omega

/-- C4: VastAIClient.run raises if and only if the invocation fails:
exit code 127 with the composed command when the binary is missing,
the process exit code with stripped stderr when it exits nonzero, and
a normal return of the captured output on exit code 0. -/
theorem c4_runRaisesIffFailure (binary : String) (apiKey : Option String)
    (args : List String) (raw cj : Bool) :
    (∀ spawn, (∃ e, runModel binary apiKey args raw cj spawn = .error e) ↔
        (spawn = .notFound ∨
         ∃ code out err, spawn = .completed code out err ∧ code ≠ 0)) ∧
    runModel binary apiKey args raw cj .notFound =
      .error ⟨composeCommand binary apiKey args (raw || cj), 127,
              "vastai CLI not found in PATH"⟩ ∧
    (∀ code out err, code ≠ 0 →
      runModel binary apiKey args raw cj (.completed code out err) =
        .error ⟨composeCommand binary apiKey args (raw || cj), code, pyStripStr err⟩) ∧
    (∀ out err, runModel binary apiKey args raw cj (.completed 0 out err) =
      .ok (if cj then .structured (captureJson out) else .rawText out)) := by
  refine ⟨?_, rfl, ?_, ?_⟩
  · intro spawn
    cases spawn with
    | notFound => simp [runModel]
    | completed code out err =>
      by_cases h : code = 0 <;> simp [runModel, h]
  · intro code out err h
    simp [runModel, h]
  · intro out err
    simp [runModel]

/-- Witness for C4 at a nonzero exit. -/
theorem c4_witness :
    (1 : Int) ≠ 0 ∧
    runModel "vastai" none ["show", "user"] false true (.completed 1 "" "boom\n") =
      .error ⟨composeCommand "vastai" none ["show", "user"] (false || true), 1,
              pyStripStr "boom\n"⟩ :=
  ⟨by decide,
   (c4_runRaisesIffFailure "vastai" none ["show", "user"] false true).2.2.1
     1 "" "boom\n" (by decide)⟩

/-- C8: a record with no truthy explicit flag, whose identity and name
are not cached, is classified owned by _is_my_template when the cached
caller id matches one of the owner and creator id fields as strings. -/
theorem c8_callerIdMatchOwned (env : Env) (st : St) (t : Record) (uid : String)
    (h1 : ∀ k ∈ (["is_owner", "mine", "owned", "is_mine", "my_template"] : List String),
      flagTruthy (rget t k) = false)
    (h2 : ∀ i, templateIdentifier t = some i → st.myIds.contains i = false)
    (h3 : pyTruthy (rget t "name") = true →
      st.myNames.contains (pyStr (rget t "name")) = false)
    (h4 : st.userId = some uid)
    (h5 : ∃ k ∈ (["user_id", "owner_id", "creator_id", "created_by", "userid"] : List String),
      pyStr (rget t k) = uid) :
    (isMyTemplate env st t).1 = true := by
  have hflags : (["is_owner", "mine", "owned", "is_mine", "my_template"] : List String).any
      (fun k => flagTruthy (rget t k)) = false := by
    rw [List.any_eq_false]
    intro k hk
    simp [h1 k hk]
  have hid : (match templateIdentifier t with
      | some i => st.myIds.contains i
      | none => false) = false := by
    cases hti : templateIdentifier t with
    | none => rfl
    | some i => exact h2 i hti
  have hname : (pyTruthy (rget t "name") &&
      st.myNames.contains (pyStr (rget t "name"))) = false := by
    cases hn : pyTruthy (rget t "name") with
    | false => rfl
    | true => rw [Bool.true_and]; exact h3 hn
  have huser : ensureUserId env st = (some uid, st, []) := by
    simp [ensureUserId, h4]
  have hmatch : (["user_id", "owner_id", "creator_id", "created_by", "userid"] : List String).any
      (fun k => pyStr (rget t k) == uid) = true := by
    rw [List.any_eq_true]
    obtain ⟨k, hk, he⟩ := h5
    exact ⟨k, hk, by simp [he]⟩
  simp [isMyTemplate, hflags, hid, hname, huser, hmatch]

/-- Witness for C8: caller id 42 owns the record with owner_id 42. -/
theorem c8_witness : (isMyTemplate envFailUser stU tOwn).1 = true :=
  c8_callerIdMatchOwned envFailUser stU tOwn "42"
    (by decide)
    (fun i hi => by
      rw [show templateIdentifier tOwn = some "1" by decide] at hi
      cases hi; rfl)
    (by decide)
    rfl
    ⟨"owner_id", by decide, rfl⟩

/-- On an invalid, unseeded cache, _ensure_template_cache performs the
my=true seeding query and the full listing call. -/
theorem ensureTemplateCache_freshCalls (env : Env) (st : St)
    (h1 : st.cacheValid = false) (h2 : st.attempted = false) :
    Call.searchC "my=true" ∈ (ensureTemplateCache env st).2.2 ∧
    Call.fetchAllC ∈ (ensureTemplateCache env st).2.2 := by
  have hseed : ∃ tail, (seedPhase env st).2.2 = Call.searchC "my=true" :: tail := by
    simp only [seedPhase, h2, Bool.false_eq_true, if_false, attemptTemplateQuery]
    split <;> exact ⟨_, rfl⟩
  obtain ⟨tail, htail⟩ := hseed
  simp only [ensureTemplateCache, h1, Bool.false_eq_true, if_false]
  cases env.fetchAll <;> simp [htail]

/-- C7: the successful path of _create_template invalidates the
ownership cache: the validity flag is cleared, the cached partition
and the identity and name sets are emptied, and the seeding marker is
reset, so the next _ensure_template_cache call performs a fresh
seeding pass and a fresh full listing call. -/
theorem c7_createTemplateInvalidates (env : Env) (st : St) (name : String)
    (rec : Option Record) :
    (createTemplateSuccess st name rec).cacheValid = false ∧
    (createTemplateSuccess st name rec).myCache = [] ∧
    (createTemplateSuccess st name rec).otherCache = [] ∧
    (createTemplateSuccess st name rec).myIds = [] ∧
    (createTemplateSuccess st name rec).myNames = [] ∧
    (createTemplateSuccess st name rec).attempted = false ∧
    Call.searchC "my=true" ∈
      (ensureTemplateCache env (createTemplateSuccess st name rec)).2.2 ∧
    Call.fetchAllC ∈
      (ensureTemplateCache env (createTemplateSuccess st name rec)).2.2 := by
  refine ⟨rfl, rfl, rfl, rfl, rfl, rfl, ?_, ?_⟩
  · exact (ensureTemplateCache_freshCalls env _ rfl rfl).1
  · exact (ensureTemplateCache_freshCalls env _ rfl rfl).2

/-- Association lookup on a cons cell. -/
theorem rget_cons (p : String × Val) (r : Record) (k : String) :
    rget (p :: r) k = if p.1 = k then p.2 else rget r k := by
  simp only [rget, List.find?]
  by_cases hc : p.1 = k
  · simp [hc]
  · simp [hc]

theorem rget_map_set (r : Record) (k k' : String) (v : Val) (h : k' ≠ k) :
    rget (r.map (fun p => if p.1 = k then (k, v) else p)) k' = rget r k' := by
  induction r with
  | nil => rfl
  | cons p r ih =>
    rw [List.map_cons, rget_cons, rget_cons]
    by_cases hp : p.1 = k
    · rw [if_pos hp]
      rw [if_neg (show ¬((k, v).1 = k') from fun hh => h hh.symm)]
      rw [if_neg (show ¬(p.1 = k') from fun hh => h ((hp.symm.trans hh).symm))]
      exact ih
    · rw [if_neg hp]
      by_cases hc : p.1 = k'
      · rw [if_pos hc, if_pos hc]
      · rw [if_neg hc, if_neg hc]
        exact ih

theorem rget_append_kv (r : Record) (k k' : String) (v : Val) (h : k' ≠ k) :
    rget (r ++ [(k, v)]) k' = rget r k' := by
  induction r with
  | nil =>
    rw [List.nil_append, rget_cons]
    rw [if_neg (show ¬((k, v).1 = k') from fun hh => h hh.symm)]
  | cons p r ih =>
    rw [List.cons_append, rget_cons, rget_cons]
    by_cases hc : p.1 = k'
    · rw [if_pos hc, if_pos hc]
    · rw [if_neg hc, if_neg hc]
      exact ih

/-- Looking up a key different from the one just set is unchanged. -/
theorem rget_rset_ne (r : Record) (k k' : String) (v : Val) (h : k' ≠ k) :
    rget (rset r k v) k' = rget r k' := by
  unfold rset
  split
  · exact rget_map_set r k k' v h
  · exact rget_append_kv r k k' v h

theorem idFromKeys_rset_hash (t : Record) (v : Val) (ks : List String)
    (h : ∀ k ∈ ks, k ≠ "template_hash") :
    idFromKeys (rset t "template_hash" v) ks = idFromKeys t ks := by
  induction ks with
  | nil => rfl
  | cons k ks ih =>
    simp only [idFromKeys]
    rw [rget_rset_ne t "template_hash" k v (h k (List.mem_cons_self k ks))]
    have ih2 := ih (fun x hx => h x (List.mem_cons_of_mem k hx))
    cases rget t k <;> simp [ih2]

/-- Setting template_hash does not change the derived identity. -/
theorem templateIdentifier_rset_hash (t : Record) (v : Val) :
    templateIdentifier (rset t "template_hash" v) = templateIdentifier t := by
  unfold templateIdentifier
  rw [idFromKeys_rset_hash t v _ (by decide)]
  rw [rget_rset_ne t "template_hash" "name" v (by decide)]
  rw [rget_rset_ne t "template_hash" "image" v (by decide)]
  rw [rget_rset_ne t "template_hash" "docker_image" v (by decide)]

/-- _remember_template leaves the derived identity unchanged. -/
theorem rememberTemplate_ident (st : St) (t : Record) :
    templateIdentifier (rememberTemplate st t).2 = templateIdentifier t := by
  unfold rememberTemplate
  cases hE : extractTemplateHash t with
  | none => rfl
  | some h => exact templateIdentifier_rset_hash t (.vstr h)

theorem mem_pushSet_of_mem (i j : String) (s : List String) (h : j ∈ s) :
    j ∈ pushSet i s := by
  unfold pushSet
  split
  · exact h
  · exact List.mem_cons_of_mem i h

theorem mem_pushSet_self (i : String) (s : List String) : i ∈ pushSet i s := by
  unfold pushSet
  split
  · next h => exact List.mem_of_elem_eq_true h
  · exact List.mem_cons_self i s

theorem contains_false_not_mem (s : List String) (i : String)
    (h : s.contains i = false) : i ∉ s := by
  intro hm
  have h2 : s.elem i = true := List.elem_iff.mpr hm
  rw [List.contains] at h
  rw [h2] at h
  cases h

theorem identsOf_append (l1 l2 : List Record) :
    identsOf (l1 ++ l2) = identsOf l1 ++ identsOf l2 :=
  List.filterMap_append l1 l2 templateIdentifier

/-- The seeding enrol loop keeps every derivable identity of the
accumulated my-list inside the seen set. -/
theorem seedLoop_idents_seen (ts : List Record) : ∀ (st : St) (my : List Record)
    (seen : List String), (∀ i ∈ identsOf my, i ∈ seen) →
    ∀ i ∈ identsOf (seedLoop ts st my seen).1, i ∈ (seedLoop ts st my seen).2.2 := by
  induction ts with
  | nil =>
    intro st my seen h
    simpa [seedLoop, identsOf] using h
  | cons t ts ih =>
    intro st my seen h
    simp only [seedLoop]
    apply ih
    intro i hi
    rw [identsOf, List.filterMap_append] at hi
    rcases List.mem_append.mp hi with h1 | h2
    · have hs := h i h1
      cases hti : templateIdentifier t with
      | none => simpa [hti] using hs
      | some j => simp only [hti]; exact mem_pushSet_of_mem j i seen hs
    · have ht2 : templateIdentifier (rememberTemplate st t).2 = some i := by
        rcases List.mem_filterMap.mp h2 with ⟨r, hr, hr2⟩
        rcases List.mem_singleton.mp hr with rfl
        exact hr2
      rw [rememberTemplate_ident] at ht2
      simp only [ht2]
      exact mem_pushSet_self i seen

/-- Invariant of the partition loop over the full listing: provided
the seen set covers the identities already placed, the other-list
keeps distinct identities and shares none with the my-list. -/
theorem partLoop_inv (env : Env) (ts : List Record) : ∀ (st : St)
    (my other : List Record) (seen : List String),
    (∀ i ∈ identsOf my, i ∈ seen) →
    (∀ i ∈ identsOf other, i ∈ seen) →
    (identsOf other).Nodup →
    (∀ i ∈ identsOf my, i ∉ identsOf other) →
    (identsOf (partLoop env ts st my other seen).2.1).Nodup ∧
    (∀ i ∈ identsOf (partLoop env ts st my other seen).1,
      i ∉ identsOf (partLoop env ts st my other seen).2.1) := by
  induction ts with
  | nil =>
    intro st my other seen _ _ h3 h4
    exact ⟨h3, h4⟩
  | cons t ts ih =>
    intro st my other seen h1 h2 h3 h4
    simp only [partLoop]
    cases hti : templateIdentifier t with
    | some i =>
      by_cases hseen : seen.contains i = true
      · simp only [hseen, if_pos]
        exact ih st my other seen h1 h2 h3 h4
      · have hnotseen : i ∉ seen :=
          contains_false_not_mem seen i (Bool.not_eq_true _ ▸ hseen)
        simp only [hseen, Bool.false_eq_true, if_false]
        cases hcls : (isMyTemplate env st t).1 with
        | true =>
          simp only [if_pos]
          have hmy : ∀ j ∈ identsOf (my ++ [(rememberTemplate (isMyTemplate env st t).2.1 t).2]),
              j ∈ i :: seen := by
            intro j hj
            rw [identsOf, List.filterMap_append] at hj
            rcases List.mem_append.mp hj with ha | hb
            · exact List.mem_cons_of_mem i (h1 j ha)
            · rcases List.mem_filterMap.mp hb with ⟨r, hr, hr2⟩
              rcases List.mem_singleton.mp hr with rfl
              rw [rememberTemplate_ident, hti] at hr2
              cases hr2
              exact List.mem_cons_self i seen
          have hoth : ∀ j ∈ identsOf other, j ∈ i :: seen :=
            fun j hj => List.mem_cons_of_mem i (h2 j hj)
          have hcross : ∀ j ∈ identsOf (my ++ [(rememberTemplate (isMyTemplate env st t).2.1 t).2]),
              j ∉ identsOf other := by
            intro j hj
            rw [identsOf, List.filterMap_append] at hj
            rcases List.mem_append.mp hj with ha | hb
            · exact h4 j ha
            · rcases List.mem_filterMap.mp hb with ⟨r, hr, hr2⟩
              rcases List.mem_singleton.mp hr with rfl
              rw [rememberTemplate_ident, hti] at hr2
              cases hr2
              exact fun hc => hnotseen (h2 _ hc)
          exact ih (rememberTemplate (isMyTemplate env st t).2.1 t).1
            (my ++ [(rememberTemplate (isMyTemplate env st t).2.1 t).2]) other
            (i :: seen) hmy hoth h3 hcross
        | false =>
          simp only [Bool.false_eq_true, if_false]
          have hoth : ∀ j ∈ identsOf (other ++ [t]), j ∈ i :: seen := by
            intro j hj
            rw [identsOf_append] at hj
            rcases List.mem_append.mp hj with ha | hb
            · exact List.mem_cons_of_mem i (h2 j ha)
            · rcases List.mem_filterMap.mp hb with ⟨r, hr, hr2⟩
              rcases List.mem_singleton.mp hr with rfl
              rw [hti] at hr2
              cases hr2
              exact List.mem_cons_self i seen
          have hnd : (identsOf (other ++ [t])).Nodup := by
            rw [identsOf_append]
            rw [show identsOf [t] = [i] by simp [identsOf, hti]]
            rw [show identsOf other ++ [i] = (identsOf other).concat i from
              (List.concat_eq_append _ i).symm]
            exact List.Nodup.concat (fun hc => hnotseen (h2 i hc)) h3
          have hcross : ∀ j ∈ identsOf my, j ∉ identsOf (other ++ [t]) := by
            intro j hj hc
            rw [identsOf_append] at hc
            rcases List.mem_append.mp hc with ha | hb
            · exact h4 j hj ha
            · rcases List.mem_filterMap.mp hb with ⟨r, hr, hr2⟩
              rcases List.mem_singleton.mp hr with rfl
              rw [hti] at hr2
              cases hr2
              exact hnotseen (h1 _ hj)
          have hmy : ∀ j ∈ identsOf my, j ∈ i :: seen :=
            fun j hj => List.mem_cons_of_mem i (h1 j hj)
          exact ih (isMyTemplate env st t).2.1 my (other ++ [t])
            (i :: seen) hmy hoth hnd hcross
    | none =>
      cases hcls : (isMyTemplate env st t).1 with
      | true =>
        simp only [if_pos]
        have hmy : ∀ j ∈ identsOf (my ++ [(rememberTemplate (isMyTemplate env st t).2.1 t).2]),
            j ∈ seen := by
          intro j hj
          rw [identsOf, List.filterMap_append] at hj
          rcases List.mem_append.mp hj with ha | hb
          · exact h1 j ha
          · rcases List.mem_filterMap.mp hb with ⟨r, hr, hr2⟩
            rcases List.mem_singleton.mp hr with rfl
            rw [rememberTemplate_ident, hti] at hr2
            cases hr2
        have hcross : ∀ j ∈ identsOf (my ++ [(rememberTemplate (isMyTemplate env st t).2.1 t).2]),
            j ∉ identsOf other := by
          intro j hj
          rw [identsOf, List.filterMap_append] at hj
          rcases List.mem_append.mp hj with ha | hb
          · exact h4 j ha
          · rcases List.mem_filterMap.mp hb with ⟨r, hr, hr2⟩
            rcases List.mem_singleton.mp hr with rfl
            rw [rememberTemplate_ident, hti] at hr2
            cases hr2
        exact ih (rememberTemplate (isMyTemplate env st t).2.1 t).1
          (my ++ [(rememberTemplate (isMyTemplate env st t).2.1 t).2]) other
          seen hmy h2 h3 hcross
      | false =>
        simp only [Bool.false_eq_true, if_false]
        have hoth : ∀ j ∈ identsOf (other ++ [t]), j ∈ seen := by
          intro j hj
          rw [identsOf_append] at hj
          rcases List.mem_append.mp hj with ha | hb
          · exact h2 j ha
          · rcases List.mem_filterMap.mp hb with ⟨r, hr, hr2⟩
            rcases List.mem_singleton.mp hr with rfl
            rw [hti] at hr2
            cases hr2
        have hnd : (identsOf (other ++ [t])).Nodup := by
          rw [identsOf_append]
          rw [show identsOf [t] = [] by simp [identsOf, hti]]
          simpa using h3
        have hcross : ∀ j ∈ identsOf my, j ∉ identsOf (other ++ [t]) := by
          intro j hj hc
          rw [identsOf_append] at hc
          rcases List.mem_append.mp hc with ha | hb
          · exact h4 j hj ha
          · rcases List.mem_filterMap.mp hb with ⟨r, hr, hr2⟩
            rcases List.mem_singleton.mp hr with rfl
            rw [hti] at hr2
            cases hr2
        exact ih (isMyTemplate env st t).2.1 my (other ++ [t])
          seen h1 hoth hnd hcross

/-- C2 amended: when _ensure_template_cache rebuilds an invalid cache
and returns successfully, the other-templates list contains no
derivable identity twice and shares no derivable identity with the
my-templates list.  (The my-templates list itself may repeat an
identity: distinct seeding strategies deduplicate only within
_collect_owner_templates, not across strategies.) -/
theorem c2_partitionDisjoint (env : Env) (st : St) (my other : List Record)
    (hv : st.cacheValid = false)
    (h : (ensureTemplateCache env st).1 = .ok (my, other)) :
    (identsOf other).Nodup ∧ ∀ i ∈ identsOf my, i ∉ identsOf other := by
  simp only [ensureTemplateCache, hv, Bool.false_eq_true, if_false] at h
  cases hf : env.fetchAll with
  | error e => rw [hf] at h; cases h
  | ok allT =>
    rw [hf] at h
    simp only [Except.ok.injEq, Prod.mk.injEq] at h
    obtain ⟨hmy, hoth⟩ := h
    have hseed : ∀ i ∈ identsOf (seedLoop (seedPhase env st).1 (seedPhase env st).2.1 [] []).1,
        i ∈ (seedLoop (seedPhase env st).1 (seedPhase env st).2.1 [] []).2.2 :=
      seedLoop_idents_seen (seedPhase env st).1 (seedPhase env st).2.1 [] []
        (by simp [identsOf])
    have hpart := partLoop_inv env allT
      (seedLoop (seedPhase env st).1 (seedPhase env st).2.1 [] []).2.1
      (seedLoop (seedPhase env st).1 (seedPhase env st).2.1 [] []).1 []
      (seedLoop (seedPhase env st).1 (seedPhase env st).2.1 [] []).2.2
      hseed (by simp [identsOf]) (by simp [identsOf]) (by simp [identsOf])
    rw [← hmy, ← hoth]
    exact hpart

/-- C2 counterexample: with the my=true query and the owner_id=7 query
both returning the record with identity 1, the rebuilt cache holds
that identity twice inside my_templates, so the claimed absence of
duplicate identities within each list fails. -/
theorem c2_counterexample :
    (ensureTemplateCache envDup stOv).1 = .ok ([recA, recA], []) ∧
    ¬(identsOf [recA, recA]).Nodup := by
  constructor
  · rfl
  · decide

/-- Witness for the amended C2 on a concrete environment whose full
listing holds two distinct records. -/
theorem c2_witness :
    (ensureTemplateCache envW stFresh).1 = .ok ([], [recA, recB]) ∧
    ((identsOf [recA, recB]).Nodup ∧
      ∀ i ∈ identsOf [], i ∉ identsOf [recA, recB]) :=
  ⟨rfl, c2_partitionDisjoint envW stFresh [] [recA, recB] rfl rfl⟩

theorem digitVal_digitChar (n : Nat) (h : n < 10) : digitVal (digitChar n) = n := by
  interval_cases n <;> decide

theorem isDigitC_digitChar (n : Nat) (h : n < 10) : isDigitC (digitChar n) = true := by
  interval_cases n <;> decide

theorem digitChar_ne_zeroChar (n : Nat) (h1 : 0 < n) (h2 : n < 10) :
    digitChar n ≠ '0' := by
  interval_cases n <;> decide

theorem isDigitC_facts (c : Char) (h : isDigitC c = true) :
    wsChar c = false ∧ c ≠ '-' ∧ c ≠ '[' ∧ c ≠ ']' ∧ c ≠ '\x7b' ∧ c ≠ '\x7d' ∧
    c ≠ '.' ∧ c ≠ 'e' ∧ c ≠ 'E' ∧ isPyWs c = false := by
  simp only [isDigitC, Bool.decide_or, Bool.or_eq_true, decide_eq_true_eq] at h
  rcases h with h | h | h | h | h | h | h | h | h | h <;> subst h <;> decide

theorem natToCharsAux_fuel (n : Nat) : ∀ f g, n < f → n < g →
    natToCharsAux f n = natToCharsAux g n := by
  induction n using Nat.strong_induction_on with
  | _ n ih =>
    intro f g hf hg
    match f, g with
    | f' + 1, g' + 1 =>
      simp only [natToCharsAux]
      by_cases h10 : n < 10
      · simp [h10]
      · simp only [h10, if_false]
        have hd : n / 10 < n := Nat.div_lt_self (by omega) (by omega)
        rw [ih (n / 10) hd f' g' (by omega) (by omega)]

/-- Unfolding equation of natToChars. -/
theorem natToChars_eq (n : Nat) : natToChars n =
    if n < 10 then [digitChar n]
    else natToChars (n / 10) ++ [digitChar (n % 10)] := by
  by_cases h10 : n < 10
  · rw [if_pos h10]
    unfold natToChars natToCharsAux
    rw [if_pos h10]
  · rw [if_neg h10]
    have h1 : natToCharsAux (n + 1) n = natToCharsAux n (n / 10) ++ [digitChar (n % 10)] := by
      simp only [natToCharsAux, h10, if_false]
    unfold natToChars
    rw [h1]
    congr 1
    exact natToCharsAux_fuel (n / 10) n (n / 10 + 1)
      (Nat.div_lt_self (by omega) (by omega)) (by omega)

theorem natToChars_ne_nil (n : Nat) : natToChars n ≠ [] := by
  rw [natToChars_eq]
  by_cases h10 : n < 10
  · simp [h10]
  · simp only [h10, if_false]
    exact List.append_ne_nil_of_right_ne_nil _ (by simp)

theorem natToChars_digits (n : Nat) : ∀ c ∈ natToChars n, isDigitC c = true := by
  induction n using Nat.strong_induction_on with
  | _ n ih =>
    rw [natToChars_eq]
    by_cases h10 : n < 10
    · simp only [h10, if_true, List.mem_singleton]
      intro c hc
      subst hc
      exact isDigitC_digitChar n h10
    · simp only [h10, if_false]
      intro c hc
      cases List.mem_append.mp hc with
      | inl hin => exact ih (n / 10) (Nat.div_lt_self (by omega) (by omega)) c hin
      | inr hin =>
        rcases List.mem_singleton.mp hin with rfl
        exact isDigitC_digitChar (n % 10) (Nat.mod_lt n (by omega))

theorem natToChars_head_ne_zero (n : Nat) (hpos : 0 < n) :
    ∀ c t, natToChars n = c :: t → c ≠ '0' := by
  induction n using Nat.strong_induction_on with
  | _ n ih =>
    intro c t hct
    rw [natToChars_eq] at hct
    by_cases h10 : n < 10
    · rw [if_pos h10] at hct
      cases hct
      exact digitChar_ne_zeroChar n hpos h10
    · rw [if_neg h10] at hct
      obtain ⟨c0, t0, h0⟩ : ∃ c0 t0, natToChars (n / 10) = c0 :: t0 := by
        cases hh : natToChars (n / 10) with
        | nil => exact absurd hh (natToChars_ne_nil _)
        | cons a b => exact ⟨a, b, rfl⟩
      rw [h0, List.cons_append] at hct
      cases hct
      exact ih (n / 10) (Nat.div_lt_self (by omega) (by omega))
        (Nat.div_pos (by omega) (by omega)) c _ h0

theorem digitsToNat_append_one (a : List Char) (c : Char) :
    digitsToNat (a ++ [c]) = digitsToNat a * 10 + digitVal c := by
  unfold digitsToNat
  rw [List.foldl_append]
  rfl

theorem digitsToNat_natToChars (n : Nat) : digitsToNat (natToChars n) = n := by
  induction n using Nat.strong_induction_on with
  | _ n ih =>
    rw [natToChars_eq]
    by_cases h10 : n < 10
    · simp only [h10, if_true]
      show 0 * 10 + digitVal (digitChar n) = n
      rw [digitVal_digitChar n h10]
      omega
    · simp only [h10, if_false]
      rw [digitsToNat_append_one]
      rw [ih (n / 10) (Nat.div_lt_self (by omega) (by omega))]
      rw [digitVal_digitChar (n % 10) (Nat.mod_lt n (by omega))]
      omega

theorem takeWhile_append_all (p : Char → Bool) (ds rest : List Char)
    (h1 : ∀ c ∈ ds, p c = true)
    (h2 : ∀ c t, rest = c :: t → p c = false) :
    (ds ++ rest).takeWhile p = ds := by
  induction ds with
  | nil =>
    cases rest with
    | nil => rfl
    | cons c t => simp [List.takeWhile_cons, h2 c t rfl]
  | cons d ds ih =>
    have hrec := ih (fun c hc => h1 c (List.mem_cons_of_mem d hc))
    simp [List.takeWhile_cons, h1 d (List.mem_cons_self d ds), hrec]

theorem dropWhile_append_all (p : Char → Bool) (ds rest : List Char)
    (h1 : ∀ c ∈ ds, p c = true)
    (h2 : ∀ c t, rest = c :: t → p c = false) :
    (ds ++ rest).dropWhile p = rest := by
  induction ds with
  | nil =>
    cases rest with
    | nil => rfl
    | cons c t => simp [List.dropWhile_cons, h2 c t rfl]
  | cons d ds ih =>
    rw [List.cons_append, List.dropWhile_cons]
    rw [h1 d (List.mem_cons_self d ds)]
    simpa using ih (fun c hc => h1 c (List.mem_cons_of_mem d hc))

theorem span_append_all (p : Char → Bool) (ds rest : List Char)
    (h1 : ∀ c ∈ ds, p c = true)
    (h2 : ∀ c t, rest = c :: t → p c = false) :
    (ds ++ rest).span p = (ds, rest) := by
  rw [List.span_eq_take_drop]
  rw [takeWhile_append_all p ds rest h1 h2, dropWhile_append_all p ds rest h1 h2]

theorem parseNumNat_natToChars (n : Nat) (rest : List Char)
    (hrest : ∀ c t, rest = c :: t → isDigitC c = false) :
    parseNumNat (natToChars n ++ rest) = some (n, rest) := by
  by_cases h0 : n = 0
  · subst h0
    rw [show natToChars 0 = ['0'] from by rw [natToChars_eq]; rfl]
    simp [parseNumNat]
  · obtain ⟨c, t, hct⟩ : ∃ c t, natToChars n = c :: t := by
      cases hh : natToChars n with
      | nil => exact absurd hh (natToChars_ne_nil _)
      | cons a b => exact ⟨a, b, rfl⟩
    have hcd : isDigitC c = true :=
      natToChars_digits n c (hct ▸ List.mem_cons_self c t)
    have hc0 : c ≠ '0' := natToChars_head_ne_zero n (by omega) c t hct
    have htd : ∀ x ∈ t, isDigitC x = true := fun x hx =>
      natToChars_digits n x (hct ▸ List.mem_cons_of_mem c hx)
    rw [hct, List.cons_append]
    simp only [parseNumNat]
    rw [if_neg hc0, if_pos hcd]
    rw [span_append_all isDigitC t rest htd hrest]
    rw [show digitsToNat (c :: t) = n from hct ▸ digitsToNat_natToChars n]

theorem floatFollow_of_safe (rest : List Char) (h : safeNumFollow rest = true) :
    floatFollow rest = false := by
  cases rest with
  | nil => rfl
  | cons c t =>
    simp only [safeNumFollow, Bool.not_eq_true', Bool.or_eq_false_iff] at h
    have hdot : c ≠ '.' := of_decide_eq_false h.1.1.2
    have he : c ≠ 'e' := of_decide_eq_false h.1.2
    have hE : c ≠ 'E' := of_decide_eq_false h.2
    simp [floatFollow, hdot, he, hE]

theorem digitHead_of_safe (rest : List Char) (h : safeNumFollow rest = true) :
    ∀ c t, rest = c :: t → isDigitC c = false := by
  intro c t hct
  subst hct
  simp only [safeNumFollow, Bool.not_eq_true', Bool.or_eq_false_iff] at h
  exact h.1.1.1

/-- Round trip for serialized integers followed by benign text. -/
theorem parseNum_intToChars (n : Int) (rest : List Char)
    (hsafe : safeNumFollow rest = true) :
    parseNum (intToChars n ++ rest) = some (n, rest) := by
  have hff := floatFollow_of_safe rest hsafe
  have hdh := digitHead_of_safe rest hsafe
  by_cases hneg : n < 0
  · rw [show intToChars n = '-' :: natToChars n.natAbs from if_pos hneg]
    rw [List.cons_append]
    simp only [parseNum, if_pos]
    rw [parseNumNat_natToChars n.natAbs rest hdh]
    simp only [hff, Bool.false_eq_true, if_false]
    have : -((n.natAbs : Int)) = n := by omega
    rw [this]
  · rw [show intToChars n = natToChars n.toNat from if_neg hneg]
    obtain ⟨c, t, hct⟩ : ∃ c t, natToChars n.toNat = c :: t := by
      cases hh : natToChars n.toNat with
      | nil => exact absurd hh (natToChars_ne_nil _)
      | cons a b => exact ⟨a, b, rfl⟩
    have hcd : isDigitC c = true :=
      natToChars_digits n.toNat c (hct ▸ List.mem_cons_self c t)
    have hcm : c ≠ '-' := (isDigitC_facts c hcd).2.1
    rw [hct, List.cons_append]
    simp only [parseNum]
    rw [if_neg hcm]
    rw [← List.cons_append, ← hct]
    rw [parseNumNat_natToChars n.toNat rest hdh]
    simp only [hff, Bool.false_eq_true, if_false]
    have : ((n.toNat : Int)) = n := by omega
    rw [this]

/-- Unfolding of parseStringBody at a backslash escape. -/
theorem parseStringBody_cons_esc (e d : Char) (cs : List Char)
    (hu : unescapeChar e = some d) :
    parseStringBody ('\\' :: e :: cs) =
      match parseStringBody cs with
      | none => none
      | some (s, r) => some (d :: s, r) := by
  rw [parseStringBody.eq_def]
  simp only [hu]

/-- Unfolding of parseStringBody at an ordinary character. -/
theorem parseStringBody_cons_raw (c : Char) (cs : List Char)
    (h1 : c ≠ '"') (h2 : c ≠ '\\') (h3 : ¬(c.toNat < 32)) :
    parseStringBody (c :: cs) =
      match parseStringBody cs with
      | none => none
      | some (s, r) => some (c :: s, r) := by
  rw [parseStringBody.eq_def]
  split
  · simp_all
  · simp_all
  · simp_all
  · simp_all
  · next hcons =>
    rename_i cc rr hne1 hne2 hne3
    injection hcons with hc hr
    subst hc
    subst hr
    rw [if_neg h3]

/-- Round trip for serialized string bodies. -/
theorem parseStringBody_escList (s rest : List Char)
    (h : ∀ c ∈ s, strOkChar c = true) :
    parseStringBody (escList s ++ '"' :: rest) = some (s, rest) := by
  induction s with
  | nil =>
    show parseStringBody (escList [] ++ '"' :: rest) = _
    rw [show escList [] = [] from rfl, List.nil_append]
    rfl
  | cons c s ih =>
    have hc := h c (List.mem_cons_self c s)
    have ihr := ih (fun x hx => h x (List.mem_cons_of_mem c hx))
    show parseStringBody ((escChar c ++ escList s) ++ '"' :: rest) = _
    rw [List.append_assoc]
    by_cases h1 : c = '"'
    · subst h1
      rw [show escChar '"' = ['\\', '"'] from rfl, List.cons_append, List.cons_append]
      rw [parseStringBody_cons_esc '"' '"' _ (by decide), List.nil_append, ihr]
    by_cases h2 : c = '\\'
    · subst h2
      rw [show escChar '\\' = ['\\', '\\'] from rfl, List.cons_append, List.cons_append]
      rw [parseStringBody_cons_esc '\\' '\\' _ (by decide), List.nil_append, ihr]
    by_cases h3 : c = '\n'
    · subst h3
      rw [show escChar '\n' = ['\\', 'n'] from rfl, List.cons_append, List.cons_append]
      rw [parseStringBody_cons_esc 'n' '\n' _ (by decide), List.nil_append, ihr]
    by_cases h4 : c = '\t'
    · subst h4
      rw [show escChar '\t' = ['\\', 't'] from rfl, List.cons_append, List.cons_append]
      rw [parseStringBody_cons_esc 't' '\t' _ (by decide), List.nil_append, ihr]
    by_cases h5 : c = '\r'
    · subst h5
      rw [show escChar '\r' = ['\\', 'r'] from rfl, List.cons_append, List.cons_append]
      rw [parseStringBody_cons_esc 'r' '\r' _ (by decide), List.nil_append, ihr]
    by_cases h6 : c = '\x08'
    · subst h6
      rw [show escChar '\x08' = ['\\', 'b'] from rfl, List.cons_append, List.cons_append]
      rw [parseStringBody_cons_esc 'b' '\x08' _ (by decide), List.nil_append, ihr]
    by_cases h7 : c = '\x0c'
    · subst h7
      rw [show escChar '\x0c' = ['\\', 'f'] from rfl, List.cons_append, List.cons_append]
      rw [parseStringBody_cons_esc 'f' '\x0c' _ (by decide), List.nil_append, ihr]
    have hesc : escChar c = [c] := by
      simp [escChar, h1, h2, h3, h4, h5, h6, h7]
    rw [hesc]
    have h32 : ¬(c.toNat < 32) := by
      simp only [strOkChar, Bool.decide_or, Bool.or_eq_true, decide_eq_true_eq] at hc
      rcases hc with hc | hc | hc | hc | hc | hc
      · omega
      all_goals (first | exact absurd hc h3 | exact absurd hc h4 |
        exact absurd hc h5 | exact absurd hc h6 | exact absurd hc h7)
    rw [List.cons_append]
    rw [parseStringBody_cons_raw c _ h1 h2 h32, List.nil_append, ihr]

theorem skipWs_cons_not (c : Char) (cs : List Char) (h : wsChar c = false) :
    skipWs (c :: cs) = c :: cs := by
  simp [skipWs, List.dropWhile_cons, h]

theorem intToChars_ne_nil (n : Int) : intToChars n ≠ [] := by
  unfold intToChars
  split
  · simp
  · exact natToChars_ne_nil _

theorem intToChars_head (n : Int) :
    ∃ c t, intToChars n = c :: t ∧ (c = '-' ∨ isDigitC c = true) := by
  unfold intToChars
  split
  · exact ⟨'-', _, rfl, Or.inl rfl⟩
  · obtain ⟨c, t, hct⟩ : ∃ c t, natToChars n.toNat = c :: t := by
      cases hh : natToChars n.toNat with
      | nil => exact absurd hh (natToChars_ne_nil _)
      | cons a b => exact ⟨a, b, rfl⟩
    exact ⟨c, t, hct, Or.inr (natToChars_digits _ c (hct ▸ List.mem_cons_self c t))⟩

/-- The first character of a serialized value is not whitespace and is
not a closing bracket. -/
theorem serV_head (v : JVal) :
    ∃ c t, serV v = c :: t ∧ wsChar c = false ∧ c ≠ ']' := by
  cases v with
  | null => exact ⟨'n', ['u', 'l', 'l'], by simp [serV], by decide, by decide⟩
  | bool b =>
    cases b with
    | true => exact ⟨'t', ['r', 'u', 'e'], by simp [serV], by decide, by decide⟩
    | false => exact ⟨'f', ['a', 'l', 's', 'e'], by simp [serV], by decide, by decide⟩
  | num n =>
    obtain ⟨c, t, hct, hc⟩ := intToChars_head n
    refine ⟨c, t, by simp [serV, hct], ?_, ?_⟩
    · rcases hc with rfl | hd
      · decide
      · exact (isDigitC_facts c hd).1
    · rcases hc with rfl | hd
      · decide
      · exact (isDigitC_facts c hd).2.2.2.1
  | str s =>
    exact ⟨'"', escList s.data ++ ['"'], by simp [serV, serStr], by decide, by decide⟩
  | arr l =>
    cases l with
    | nil => exact ⟨'[', [']'], by simp [serV], by decide, by decide⟩
    | cons e es => exact ⟨'[', serItems e es, by simp [serV], by decide, by decide⟩
  | obj l =>
    cases l with
    | nil => exact ⟨'\x7b', ['\x7d'], by simp [serV], by decide, by decide⟩
    | cons p ps => exact ⟨'\x7b', serPairs p ps, by simp [serV], by decide, by decide⟩

theorem skipWs_serV_append (v : JVal) (rest : List Char) :
    skipWs (serV v ++ rest) = serV v ++ rest := by
  obtain ⟨c, t, hct, hws, _⟩ := serV_head v
  rw [hct, List.cons_append]
  exact skipWs_cons_not c _ hws

theorem serStr_length_ge (s : String) : 2 ≤ (serStr s).length := by
  simp [serStr]

mutual

theorem fuelNeed_le_length (v : JVal) : fuelNeed v ≤ (serV v).length := by
  cases v with
  | null => simp [fuelNeed, serV]
  | bool b => cases b <;> simp [fuelNeed, serV]
  | num n =>
    have h := intToChars_ne_nil n
    have : 1 ≤ (intToChars n).length := by
      cases hh : intToChars n with
      | nil => exact absurd hh h
      | cons a b => simp
    simpa [fuelNeed, serV] using this
  | str s =>
    have := serStr_length_ge s
    simp only [fuelNeed, serV]
    omega
  | arr l =>
    cases l with
    | nil => simp [fuelNeed, serV]
    | cons e es =>
      have h := needElems_le_length e es
      simp only [fuelNeed, serV, List.length_cons]
      omega
  | obj l =>
    cases l with
    | nil => simp [fuelNeed, serV]
    | cons p ps =>
      have h := needMembers_le_length p ps
      simp only [fuelNeed, serV, List.length_cons]
      omega
termination_by sizeOf v

theorem needElems_le_length (e : JVal) (es : List JVal) :
    needElems e es ≤ (serItems e es).length := by
  cases es with
  | nil =>
    have h := fuelNeed_le_length e
    simp only [needElems, serItems, List.length_append, List.length_cons]
    omega
  | cons e2 es2 =>
    have h1 := fuelNeed_le_length e
    have h2 := needElems_le_length e2 es2
    simp only [needElems, serItems, List.length_append, List.length_cons]
    omega
termination_by sizeOf e + sizeOf es

theorem needMembers_le_length (p : String × JVal) (ps : List (String × JVal)) :
    needMembers p ps ≤ (serPairs p ps).length := by
  cases ps with
  | nil =>
    obtain ⟨k, v⟩ := p
    have h1 := fuelNeed_le_length v
    have h2 := serStr_length_ge k
    simp only [needMembers, serPairs, List.length_append, List.length_cons]
    omega
  | cons p2 ps2 =>
    obtain ⟨k, v⟩ := p
    have h1 := fuelNeed_le_length v
    have h2 := needMembers_le_length p2 ps2
    have h3 := serStr_length_ge k
    simp only [needMembers, serPairs, List.length_append, List.length_cons]
    omega
termination_by sizeOf p + sizeOf ps

end

theorem fuelNeed_pos (v : JVal) : 1 ≤ fuelNeed v := by
  cases v with
  | arr l => cases l <;> simp [fuelNeed]
  | obj l => cases l <;> simp [fuelNeed]
  | _ => simp [fuelNeed]

theorem needElems_pos (e : JVal) (es : List JVal) : 1 ≤ needElems e es := by
  cases es <;> (simp only [needElems]; omega)

theorem needMembers_pos (p : String × JVal) (ps : List (String × JVal)) :
    1 ≤ needMembers p ps := by
  cases ps <;> (obtain ⟨k, v⟩ := p; simp only [needMembers]; omega)

theorem isDigitC_not_special (c : Char) (h : isDigitC c = true) :
    c ≠ '"' ∧ c ≠ '\x7b' ∧ c ≠ '[' ∧ c ≠ 'n' ∧ c ≠ 't' ∧ c ≠ 'f' := by
  simp only [isDigitC, Bool.decide_or, Bool.or_eq_true, decide_eq_true_eq] at h
  rcases h with h | h | h | h | h | h | h | h | h | h <;> subst h <;> decide

theorem numOk_of_safe (v : JVal) (rest : List Char)
    (h : safeNumFollow rest = true) : numOk v rest := by
  cases v <;> first | trivial | exact h

theorem serPairs_head (k : String) (v : JVal) (ps : List (String × JVal)) :
    ∃ X, serPairs (k, v) ps = '"' :: X := by
  cases ps with
  | nil =>
    rw [show serPairs (k, v) [] = serStr k ++ ':' :: ' ' :: serV v ++ ['\x7d'] from
      by simp [serPairs]]
    rw [show serStr k = '"' :: (escList k.data ++ ['"']) from by simp [serStr]]
    rw [List.cons_append]
    exact ⟨_, rfl⟩
  | cons p2 ps2 =>
    rw [show serPairs (k, v) (p2 :: ps2) =
      serStr k ++ ':' :: ' ' :: serV v ++ ',' :: ' ' :: serPairs p2 ps2 from
      by simp [serPairs]]
    rw [show serStr k = '"' :: (escList k.data ++ ['"']) from by simp [serStr]]
    rw [List.cons_append]
    exact ⟨_, rfl⟩

theorem skipWs_serItems (e : JVal) (es : List JVal) (rest : List Char) :
    skipWs (serItems e es ++ rest) = serItems e es ++ rest := by
  obtain ⟨c, t, hct, hws, _⟩ := serV_head e
  cases es with
  | nil =>
    rw [show serItems e [] = serV e ++ [']'] from by simp [serItems]]
    rw [List.append_assoc, hct, List.cons_append]
    exact skipWs_cons_not c _ hws
  | cons e2 es2 =>
    rw [show serItems e (e2 :: es2) = serV e ++ ',' :: ' ' :: serItems e2 es2 from
      by simp [serItems]]
    rw [List.append_assoc, hct, List.cons_append]
    exact skipWs_cons_not c _ hws
theorem parseVal_succ (f : Nat) (c : Char) (cs : List Char) :
    parseVal (f + 1) (c :: cs) =
      (if c = '"' then
        match parseStringBody cs with
        | none => none
        | some (s, r) => some (.str (String.mk s), r)
      else if c = '\x7b' then
        match skipWs cs with
        | '\x7d' :: r => some (.obj [], r)
        | '"' :: r =>
          match parseMembers f r with
          | none => none
          | some (ps, r2) => some (.obj ps, r2)
        | _ => none
      else if c = '[' then
        match skipWs cs with
        | ']' :: r => some (.arr [], r)
        | cs1 =>
          match parseElems f cs1 with
          | none => none
          | some (vs, r2) => some (.arr vs, r2)
      else if c = 'n' then
        match cs with
        | 'u' :: 'l' :: 'l' :: r => some (.null, r)
        | _ => none
      else if c = 't' then
        match cs with
        | 'r' :: 'u' :: 'e' :: r => some (.bool true, r)
        | _ => none
      else if c = 'f' then
        match cs with
        | 'a' :: 'l' :: 's' :: 'e' :: r => some (.bool false, r)
        | _ => none
      else if c = '-' ∨ isDigitC c then
        match parseNum (c :: cs) with
        | none => none
        | some (n, r) => some (.num n, r)
      else none) := rfl

theorem parseMembers_succ (f : Nat) (cs : List Char) :
    parseMembers (f + 1) cs =
      (match parseStringBody cs with
      | none => none
      | some (k, r1) =>
        match skipWs r1 with
        | ':' :: r2 =>
          match parseVal f (skipWs r2) with
          | none => none
          | some (v, r3) =>
            match skipWs r3 with
            | '\x7d' :: r4 => some ([(String.mk k, v)], r4)
            | ',' :: r4 =>
              match skipWs r4 with
              | '"' :: r5 =>
                match parseMembers f r5 with
                | none => none
                | some (ps, r6) => some ((String.mk k, v) :: ps, r6)
              | _ => none
            | _ => none
        | _ => none) := rfl

theorem parseElems_succ (f : Nat) (cs : List Char) :
    parseElems (f + 1) cs =
      (match parseVal f cs with
      | none => none
      | some (v, r1) =>
        match skipWs r1 with
        | ']' :: r2 => some ([v], r2)
        | ',' :: r2 =>
          match parseElems f (skipWs r2) with
          | none => none
          | some (vs, r3) => some (v :: vs, r3)
        | _ => none) := rfl

theorem parseVal_num_branch (f : Nat) (c : Char) (cs : List Char)
    (h7 : c = '-' ∨ isDigitC c = true)
    (h1 : c ≠ '"') (h2 : c ≠ '\x7b') (h3 : c ≠ '[') (h4 : c ≠ 'n')
    (h5 : c ≠ 't') (h6 : c ≠ 'f') :
    parseVal (f + 1) (c :: cs) =
      match parseNum (c :: cs) with
      | none => none
      | some (n, r) => some (.num n, r) := by
  rw [parseVal_succ]
  rw [if_neg h1, if_neg h2, if_neg h3, if_neg h4, if_neg h5, if_neg h6]
  rw [if_pos h7]

/-- Head shape of a serialized nonempty-array body. -/
theorem serItems_head (e : JVal) (es : List JVal) :
    ∃ c t, serItems e es = c :: t ∧ c ≠ ']' := by
  obtain ⟨c, t, hct, _, hrb⟩ := serV_head e
  cases es with
  | nil =>
    rw [show serItems e [] = serV e ++ [']'] from by simp [serItems], hct,
      List.cons_append]
    exact ⟨c, _, rfl, hrb⟩
  | cons e2 es2 =>
    rw [show serItems e (e2 :: es2) = serV e ++ ',' :: ' ' :: serItems e2 es2 from
      by simp [serItems], hct, List.cons_append]
    exact ⟨c, _, rfl, hrb⟩

/-- The serialize-parse round trip: with sufficient fuel, parsing the
serialization of a value (followed by benign text) recovers the value. -/
theorem parse_ser_rt (f : Nat) :
    (∀ v rest, strOkV v = true → fuelNeed v ≤ f → numOk v rest →
      parseVal f (serV v ++ rest) = some (v, rest)) ∧
    (∀ e es rest, strOkV e = true → strOkL es = true → needElems e es ≤ f →
      parseElems f (serItems e es ++ rest) = some (e :: es, rest)) ∧
    (∀ k v ps rest X, serPairs (k, v) ps = '"' :: X →
      (String.data k).all strOkChar = true → strOkV v = true → strOkP ps = true →
      needMembers (k, v) ps ≤ f →
      parseMembers f (X ++ rest) = some ((k, v) :: ps, rest)) := by
  induction f with
  | zero =>
    refine ⟨?_, ?_, ?_⟩
    · intro v rest _ hf _
      have := fuelNeed_pos v
      omega
    · intro e es rest _ _ hf
      have := needElems_pos e es
      omega
    · intro k v ps rest X _ _ _ _ hf
      have := needMembers_pos (k, v) ps
      omega
  | succ f ih =>
    obtain ⟨ihv, ihe, ihm⟩ := ih
    refine ⟨?_, ?_, ?_⟩
    · intro v rest hok hf hnum
      cases v with
      | null =>
        rw [show serV .null = ['n', 'u', 'l', 'l'] from by simp [serV]]
        rfl
      | bool b =>
        cases b with
        | false =>
          rw [show serV (.bool false) = ['f', 'a', 'l', 's', 'e'] from by simp [serV]]
          rfl
        | true =>
          rw [show serV (.bool true) = ['t', 'r', 'u', 'e'] from by simp [serV]]
          rfl
      | num n =>
        rw [show serV (.num n) = intToChars n from by simp [serV]]
        obtain ⟨c, t, hct, hc⟩ := intToChars_head n
        have hne : c ≠ '"' ∧ c ≠ '\x7b' ∧ c ≠ '[' ∧ c ≠ 'n' ∧ c ≠ 't' ∧ c ≠ 'f' := by
          rcases hc with rfl | hd
          · exact ⟨by decide, by decide, by decide, by decide, by decide, by decide⟩
          · exact isDigitC_not_special c hd
        have hc2 : c = '-' ∨ isDigitC c = true := hc
        rw [hct, List.cons_append]
        rw [parseVal_num_branch f c _ hc2 hne.1 hne.2.1 hne.2.2.1 hne.2.2.2.1
          hne.2.2.2.2.1 hne.2.2.2.2.2]
        rw [← List.cons_append, ← hct]
        have hsafe : safeNumFollow rest = true := hnum
        rw [parseNum_intToChars n rest hsafe]
      | str s =>
        rw [show serV (.str s) = '"' :: (escList s.data ++ ['"']) from
          by simp [serV, serStr]]
        rw [List.cons_append, List.append_assoc, List.singleton_append]
        rw [parseVal_succ, if_pos rfl]
        have hstr : ∀ c ∈ s.data, strOkChar c = true := by
          have : s.data.all strOkChar = true := by simpa [strOkV] using hok
          intro c hc
          exact List.all_eq_true.mp this c hc
        rw [parseStringBody_escList s.data rest hstr]
      | arr l =>
        cases l with
        | nil =>
          rw [show serV (.arr []) = ['[', ']'] from by simp [serV]]
          rfl
        | cons e es =>
          rw [show serV (.arr (e :: es)) = '[' :: serItems e es from by simp [serV]]
          rw [List.cons_append, parseVal_succ,
            if_neg (by decide : ¬('[' : Char) = '"'),
            if_neg (by decide : ¬('[' : Char) = '\x7b'), if_pos rfl]
          rw [skipWs_serItems e es rest]
          have hokA := hok
          simp only [strOkV, strOkL] at hokA
          rw [Bool.and_eq_true] at hokA
          have hokE : strOkV e = true := hokA.1
          have hokL : strOkL es = true := hokA.2
          have hfe : needElems e es ≤ f := by
            have : 1 + needElems e es ≤ f + 1 := by simpa [fuelNeed] using hf
            omega
          obtain ⟨c, t, hct, hrb⟩ := serItems_head e es
          split
          · next r heq =>
            rw [hct, List.cons_append] at heq
            injection heq with hh _
            exact absurd hh hrb
          · rw [ihe e es rest hokE hokL hfe]
      | obj l =>
        cases l with
        | nil =>
          rw [show serV (.obj []) = ['\x7b', '\x7d'] from by simp [serV]]
          rfl
        | cons p ps =>
          obtain ⟨k, v⟩ := p
          rw [show serV (.obj ((k, v) :: ps)) = '\x7b' :: serPairs (k, v) ps from
            by simp [serV]]
          obtain ⟨X, hX⟩ := serPairs_head k v ps
          rw [List.cons_append, parseVal_succ,
            if_neg (by decide : ¬('\x7b' : Char) = '"'), if_pos rfl]
          rw [hX, List.cons_append, skipWs_cons_not '"' _ (by decide)]
          have hokA := hok
          simp only [strOkV, strOkP] at hokA
          rw [Bool.and_eq_true, Bool.and_eq_true] at hokA
          have hcomp : (String.data k).all strOkChar = true ∧ strOkV v = true ∧
              strOkP ps = true := ⟨hokA.1.1, hokA.1.2, hokA.2⟩
          have hfm : needMembers (k, v) ps ≤ f := by
            have : 1 + needMembers (k, v) ps ≤ f + 1 := by simpa [fuelNeed] using hf
            omega
          show (match parseMembers f (X ++ rest) with
            | none => none
            | some (ps2, r2) => some (JVal.obj ps2, r2)) =
              some (JVal.obj ((k, v) :: ps), rest)
          rw [ihm k v ps rest X hX hcomp.1 hcomp.2.1 hcomp.2.2 hfm]
    · intro e es rest hokE hokL hf
      rw [parseElems_succ]
      cases es with
      | nil =>
        rw [show serItems e [] = serV e ++ [']'] from by simp [serItems]]
        rw [List.append_assoc, List.singleton_append]
        have hfe : fuelNeed e ≤ f := by
          have : 1 + fuelNeed e ≤ f + 1 := by simpa [needElems] using hf
          omega
        rw [ihv e (']' :: rest) hokE hfe (numOk_of_safe e _ rfl)]
        rfl
      | cons e2 es2 =>
        rw [show serItems e (e2 :: es2) = serV e ++ ',' :: ' ' :: serItems e2 es2 from
          by simp [serItems]]
        rw [List.append_assoc, List.cons_append, List.cons_append]
        have hfe : fuelNeed e ≤ f := by
          have : 1 + fuelNeed e + needElems e2 es2 ≤ f + 1 := by
            simpa [needElems] using hf
          omega
        have hf2 : needElems e2 es2 ≤ f := by
          have : 1 + fuelNeed e + needElems e2 es2 ≤ f + 1 := by
            simpa [needElems] using hf
          omega
        have hokB := hokL
        simp only [strOkL] at hokB
        rw [Bool.and_eq_true] at hokB
        have hok2 : strOkV e2 = true := hokB.1
        have hokL2 : strOkL es2 = true := hokB.2
        rw [ihv e (',' :: ' ' :: (serItems e2 es2 ++ rest)) hokE hfe
          (numOk_of_safe e _ rfl)]
        show (match parseElems f (skipWs (' ' :: (serItems e2 es2 ++ rest))) with
          | none => none
          | some (vs, r3) => some (e :: vs, r3)) = some (e :: e2 :: es2, rest)
        rw [show skipWs (' ' :: (serItems e2 es2 ++ rest)) =
          serItems e2 es2 ++ rest from by
            rw [show skipWs (' ' :: (serItems e2 es2 ++ rest)) =
              skipWs (serItems e2 es2 ++ rest) from rfl]
            exact skipWs_serItems e2 es2 rest]
        rw [ihe e2 es2 rest hok2 hokL2 hf2]
    · intro k v ps rest X hX hk hv hps hf
      rw [parseMembers_succ]
      cases ps with
      | nil =>
        have hXeq : X = escList k.data ++ '"' :: ':' :: ' ' :: (serV v ++ ['\x7d']) := by
          have h3 : serPairs (k, v) [] =
              '"' :: (escList k.data ++ '"' :: ':' :: ' ' :: (serV v ++ ['\x7d'])) := by
            rw [show serPairs (k, v) [] = serStr k ++ ':' :: ' ' :: serV v ++ ['\x7d'] from
              by simp [serPairs]]
            rw [show serStr k = '"' :: (escList k.data ++ ['"']) from by simp [serStr]]
            simp [List.append_assoc]
          rw [h3] at hX
          injection hX with h4 h5
          exact h5.symm
        subst hXeq
        rw [show (escList k.data ++ '"' :: ':' :: ' ' :: (serV v ++ ['\x7d'])) ++ rest =
          escList k.data ++ '"' :: ':' :: ' ' :: (serV v ++ '\x7d' :: rest) from by
            simp [List.append_assoc]]
        have hkm : ∀ c ∈ k.data, strOkChar c = true := by
          intro c hc
          exact List.all_eq_true.mp hk c hc
        rw [parseStringBody_escList k.data _ hkm]
        have hfv : fuelNeed v ≤ f := by
          have : 1 + fuelNeed v ≤ f + 1 := by simpa [needMembers] using hf
          omega
        show (match parseVal f (skipWs (' ' :: (serV v ++ '\x7d' :: rest))) with
          | none => none
          | some (v2, r3) =>
            match skipWs r3 with
            | '\x7d' :: r4 => some ([(String.mk k.data, v2)], r4)
            | ',' :: r4 =>
              match skipWs r4 with
              | '"' :: r5 =>
                match parseMembers f r5 with
                | none => none
                | some (ps2, r6) => some ((String.mk k.data, v2) :: ps2, r6)
              | _ => none
            | _ => none) = some ([(k, v)], rest)
        rw [show skipWs (' ' :: (serV v ++ '\x7d' :: rest)) = serV v ++ '\x7d' :: rest from by
          rw [show skipWs (' ' :: (serV v ++ '\x7d' :: rest)) =
            skipWs (serV v ++ '\x7d' :: rest) from rfl]
          exact skipWs_serV_append v _]
        rw [ihv v ('\x7d' :: rest) hv hfv (numOk_of_safe v _ rfl)]
        rfl
      | cons p2 ps2 =>
        obtain ⟨k2, v2⟩ := p2
        have hXeq : X = escList k.data ++
            '"' :: ':' :: ' ' :: (serV v ++ ',' :: ' ' :: serPairs (k2, v2) ps2) := by
          have h3 : serPairs (k, v) ((k2, v2) :: ps2) =
              '"' :: (escList k.data ++ '"' :: ':' :: ' ' ::
                (serV v ++ ',' :: ' ' :: serPairs (k2, v2) ps2)) := by
            rw [show serPairs (k, v) ((k2, v2) :: ps2) =
              serStr k ++ ':' :: ' ' :: serV v ++ ',' :: ' ' :: serPairs (k2, v2) ps2 from
              by simp [serPairs]]
            rw [show serStr k = '"' :: (escList k.data ++ ['"']) from by simp [serStr]]
            simp [List.append_assoc]
          rw [h3] at hX
          injection hX with h4 h5
          exact h5.symm
        subst hXeq
        rw [show (escList k.data ++
            '"' :: ':' :: ' ' :: (serV v ++ ',' :: ' ' :: serPairs (k2, v2) ps2)) ++ rest =
          escList k.data ++ '"' :: ':' :: ' ' ::
            (serV v ++ ',' :: ' ' :: (serPairs (k2, v2) ps2 ++ rest)) from by
            simp [List.append_assoc]]
        have hkm : ∀ c ∈ k.data, strOkChar c = true := by
          intro c hc
          exact List.all_eq_true.mp hk c hc
        rw [parseStringBody_escList k.data _ hkm]
        have hfv : fuelNeed v ≤ f := by
          have : 1 + fuelNeed v + needMembers (k2, v2) ps2 ≤ f + 1 := by
            simpa [needMembers] using hf
          omega
        have hfm2 : needMembers (k2, v2) ps2 ≤ f := by
          have : 1 + fuelNeed v + needMembers (k2, v2) ps2 ≤ f + 1 := by
            simpa [needMembers] using hf
          omega
        have hpsA := hps
        simp only [strOkP] at hpsA
        rw [Bool.and_eq_true, Bool.and_eq_true] at hpsA
        have hcomp : (String.data k2).all strOkChar = true ∧ strOkV v2 = true ∧
            strOkP ps2 = true := ⟨hpsA.1.1, hpsA.1.2, hpsA.2⟩
        show (match parseVal f (skipWs (' ' ::
            (serV v ++ ',' :: ' ' :: (serPairs (k2, v2) ps2 ++ rest)))) with
          | none => none
          | some (v3, r3) =>
            match skipWs r3 with
            | '\x7d' :: r4 => some ([(String.mk k.data, v3)], r4)
            | ',' :: r4 =>
              match skipWs r4 with
              | '"' :: r5 =>
                match parseMembers f r5 with
                | none => none
                | some (ps3, r6) => some ((String.mk k.data, v3) :: ps3, r6)
              | _ => none
            | _ => none) = some ((k, v) :: (k2, v2) :: ps2, rest)
        rw [show skipWs (' ' :: (serV v ++ ',' :: ' ' :: (serPairs (k2, v2) ps2 ++ rest))) =
          serV v ++ ',' :: ' ' :: (serPairs (k2, v2) ps2 ++ rest) from by
            rw [show skipWs (' ' :: (serV v ++ ',' :: ' ' :: (serPairs (k2, v2) ps2 ++ rest))) =
              skipWs (serV v ++ ',' :: ' ' :: (serPairs (k2, v2) ps2 ++ rest)) from rfl]
            exact skipWs_serV_append v _]
        rw [ihv v (',' :: ' ' :: (serPairs (k2, v2) ps2 ++ rest)) hv hfv
          (numOk_of_safe v _ rfl)]
        obtain ⟨X2, hX2⟩ := serPairs_head k2 v2 ps2
        show (match skipWs (' ' :: (serPairs (k2, v2) ps2 ++ rest)) with
          | '"' :: r5 =>
            match parseMembers f r5 with
            | none => none
            | some (ps3, r6) => some ((String.mk k.data, v) :: ps3, r6)
          | _ => none) = some ((k, v) :: (k2, v2) :: ps2, rest)
        rw [show skipWs (' ' :: (serPairs (k2, v2) ps2 ++ rest)) = '"' :: (X2 ++ rest) from by
          rw [show skipWs (' ' :: (serPairs (k2, v2) ps2 ++ rest)) =
            skipWs (serPairs (k2, v2) ps2 ++ rest) from rfl]
          rw [hX2, List.cons_append]
          exact skipWs_cons_not '"' _ (by decide)]
        show (match parseMembers f (X2 ++ rest) with
          | none => none
          | some (ps3, r6) => some ((String.mk k.data, v) :: ps3, r6)) =
            some ((k, v) :: (k2, v2) :: ps2, rest)
        rw [ihm k2 v2 ps2 rest X2 hX2 hcomp.1 hcomp.2.1 hcomp.2.2 hfm2]

theorem noBrChar_facts (c : Char) (h : noBrChar c = true) :
    c ≠ '[' ∧ c ≠ ']' ∧ c ≠ '\x7b' ∧ c ≠ '\x7d' := by
  simp only [noBrChar, decide_not, Bool.not_eq_eq_eq_not, Bool.not_true, decide_eq_false_iff_not] at h
  push_neg at h
  exact h

theorem scanStack_cons_skip (stack : List Char) (c : Char) (rest : List Char)
    (h : noBrChar c = true) :
    scanStack stack (c :: rest) = Option.map (· + 1) (scanStack stack rest) := by
  obtain ⟨h1, h2, h3, h4⟩ := noBrChar_facts c h
  rw [show scanStack stack (c :: rest) =
    (if c = '\x7b' then
      match scanStack ('\x7d' :: stack) rest with
      | none => none
      | some n => some (n + 1)
    else if c = '[' then
      match scanStack (']' :: stack) rest with
      | none => none
      | some n => some (n + 1)
    else if c = '\x7d' ∨ c = ']' then
      match stack with
      | [] => none
      | t :: stack2 =>
        if t = c then
          if stack2 = [] then some 1
          else
            match scanStack stack2 rest with
            | none => none
            | some n => some (n + 1)
        else none
    else
      match scanStack stack rest with
      | none => none
      | some n => some (n + 1)) from rfl]
  rw [if_neg h3, if_neg h1, if_neg (by simp [h2, h4])]
  cases scanStack stack rest <;> rfl

theorem scanStack_append_skip (bs : List Char) : ∀ (stack rest : List Char),
    bs.all noBrChar = true →
    scanStack stack (bs ++ rest) = Option.map (· + bs.length) (scanStack stack rest) := by
  induction bs with
  | nil =>
    intro stack rest _
    rw [List.nil_append]
    cases scanStack stack rest <;> simp
  | cons c bs ih =>
    intro stack rest hall
    rw [List.all_cons, Bool.and_eq_true] at hall
    rw [List.cons_append, scanStack_cons_skip stack c (bs ++ rest) hall.1, ih stack rest hall.2]
    cases scanStack stack rest <;> simp <;> omega

theorem scanStack_open_sq (stack rest : List Char) :
    scanStack stack ('[' :: rest) = Option.map (· + 1) (scanStack (']' :: stack) rest) := by
  rw [show scanStack stack ('[' :: rest) =
    (if ('[' : Char) = '\x7b' then
      match scanStack ('\x7d' :: stack) rest with
      | none => none
      | some n => some (n + 1)
    else if ('[' : Char) = '[' then
      match scanStack (']' :: stack) rest with
      | none => none
      | some n => some (n + 1)
    else if ('[' : Char) = '\x7d' ∨ ('[' : Char) = ']' then
      match stack with
      | [] => none
      | t :: stack2 =>
        if t = '[' then
          if stack2 = [] then some 1
          else
            match scanStack stack2 rest with
            | none => none
            | some n => some (n + 1)
        else none
    else
      match scanStack stack rest with
      | none => none
      | some n => some (n + 1)) from rfl]
  rw [if_neg (by decide), if_pos rfl]
  cases scanStack (']' :: stack) rest <;> rfl

theorem scanStack_open_br (stack rest : List Char) :
    scanStack stack ('\x7b' :: rest) = Option.map (· + 1) (scanStack ('\x7d' :: stack) rest) := by
  rw [show scanStack stack ('\x7b' :: rest) =
    (if ('\x7b' : Char) = '\x7b' then
      match scanStack ('\x7d' :: stack) rest with
      | none => none
      | some n => some (n + 1)
    else if ('\x7b' : Char) = '[' then
      match scanStack (']' :: stack) rest with
      | none => none
      | some n => some (n + 1)
    else if ('\x7b' : Char) = '\x7d' ∨ ('\x7b' : Char) = ']' then
      match stack with
      | [] => none
      | t :: stack2 =>
        if t = '\x7b' then
          if stack2 = [] then some 1
          else
            match scanStack stack2 rest with
            | none => none
            | some n => some (n + 1)
        else none
    else
      match scanStack stack rest with
      | none => none
      | some n => some (n + 1)) from rfl]
  rw [if_pos rfl]
  cases scanStack ('\x7d' :: stack) rest <;> rfl

theorem scanStack_close_sq (stack rest : List Char) :
    scanStack (']' :: stack) (']' :: rest) =
      (if stack = [] then some 1 else Option.map (· + 1) (scanStack stack rest)) := by
  rw [show scanStack (']' :: stack) (']' :: rest) =
    (if (']' : Char) = '\x7b' then
      match scanStack ('\x7d' :: ']' :: stack) rest with
      | none => none
      | some n => some (n + 1)
    else if (']' : Char) = '[' then
      match scanStack (']' :: ']' :: stack) rest with
      | none => none
      | some n => some (n + 1)
    else if (']' : Char) = '\x7d' ∨ (']' : Char) = ']' then
      match (']' :: stack : List Char) with
      | [] => none
      | t :: stack2 =>
        if t = ']' then
          if stack2 = [] then some 1
          else
            match scanStack stack2 rest with
            | none => none
            | some n => some (n + 1)
        else none
    else
      match scanStack (']' :: stack) rest with
      | none => none
      | some n => some (n + 1)) from rfl]
  rw [if_neg (by decide), if_neg (by decide), if_pos (by decide)]
  show (if (']' : Char) = ']' then _ else none) = _
  rw [if_pos rfl]
  split
  · rfl
  · cases scanStack stack rest <;> rfl

theorem scanStack_close_br (stack rest : List Char) :
    scanStack ('\x7d' :: stack) ('\x7d' :: rest) =
      (if stack = [] then some 1 else Option.map (· + 1) (scanStack stack rest)) := by
  rw [show scanStack ('\x7d' :: stack) ('\x7d' :: rest) =
    (if ('\x7d' : Char) = '\x7b' then
      match scanStack ('\x7d' :: '\x7d' :: stack) rest with
      | none => none
      | some n => some (n + 1)
    else if ('\x7d' : Char) = '[' then
      match scanStack (']' :: '\x7d' :: stack) rest with
      | none => none
      | some n => some (n + 1)
    else if ('\x7d' : Char) = '\x7d' ∨ ('\x7d' : Char) = ']' then
      match ('\x7d' :: stack : List Char) with
      | [] => none
      | t :: stack2 =>
        if t = '\x7d' then
          if stack2 = [] then some 1
          else
            match scanStack stack2 rest with
            | none => none
            | some n => some (n + 1)
        else none
    else
      match scanStack ('\x7d' :: stack) rest with
      | none => none
      | some n => some (n + 1)) from rfl]
  rw [if_neg (by decide), if_neg (by decide), if_pos (by decide)]
  show (if ('\x7d' : Char) = '\x7d' then _ else none) = _
  rw [if_pos rfl]
  split
  · rfl
  · cases scanStack stack rest <;> rfl

theorem findIdx_shift (p : Char → Bool) (xs : List Char) : ∀ i : Nat,
    xs.findIdx? p i = (xs.findIdx? p).map (· + i) := by
  induction xs with
  | nil => intro i; rfl
  | cons x xs ih =>
    intro i
    rw [List.findIdx?_cons, List.findIdx?_cons]
    by_cases h : p x = true
    · simp [h]
    · rw [if_neg h, if_neg h, ih (i + 1), ih 1]
      cases xs.findIdx? p <;> simp <;> omega

theorem findIdx_none (p : Char → Bool) (l : List Char)
    (h : ∀ c ∈ l, p c = false) : l.findIdx? p = none := by
  induction l with
  | nil => rfl
  | cons x xs ih =>
    rw [List.findIdx?_cons, if_neg (by rw [h x (List.mem_cons_self x xs)]; simp), findIdx_shift]
    rw [ih (fun c hc => h c (List.mem_cons_of_mem x hc))]
    rfl

theorem findIdx_append_skip (p : Char → Bool) (n1 l2 : List Char)
    (h : ∀ c ∈ n1, p c = false) :
    (n1 ++ l2).findIdx? p = (l2.findIdx? p).map (· + n1.length) := by
  induction n1 with
  | nil =>
    rw [List.nil_append]
    cases l2.findIdx? p <;> simp
  | cons x xs ih =>
    rw [List.cons_append, List.findIdx?_cons,
      if_neg (by rw [h x (List.mem_cons_self x xs)]; simp), findIdx_shift,
      ih (fun c hc => h c (List.mem_cons_of_mem x hc))]
    cases l2.findIdx? p <;> simp <;> omega

theorem noBrChar_of_digit (c : Char) (h : isDigitC c = true) : noBrChar c = true := by
  simp only [isDigitC, Bool.decide_or, Bool.or_eq_true, decide_eq_true_eq] at h
  rcases h with h | h | h | h | h | h | h | h | h | h <;> subst h <;> decide

theorem intToChars_noBr (n : Int) : (intToChars n).all noBrChar = true := by
  have hnat : ∀ m : Nat, (natToChars m).all noBrChar = true := by
    intro m
    rw [List.all_eq_true]
    intro c hc
    exact noBrChar_of_digit c (natToChars_digits m c hc)
  unfold intToChars
  split
  · rw [List.all_cons, hnat]
    rfl
  · exact hnat _

theorem escChar_noBr (c d : Char) (hc : noBrChar c = true) (hd : d ∈ escChar c) :
    noBrChar d = true := by
  simp only [escChar] at hd
  split at hd
  all_goals try split at hd
  all_goals try split at hd
  all_goals try split at hd
  all_goals try split at hd
  all_goals try split at hd
  all_goals try split at hd
  all_goals simp only [List.mem_cons, List.not_mem_nil, or_false] at hd
  all_goals first
    | (rcases hd with rfl | rfl <;> decide)
    | (subst hd; exact hc)

theorem escList_noBr (l : List Char) (h : l.all noBrChar = true) :
    (escList l).all noBrChar = true := by
  induction l with
  | nil => rfl
  | cons c cs ih =>
    rw [List.all_cons, Bool.and_eq_true] at h
    rw [show escList (c :: cs) = escChar c ++ escList cs from rfl, List.all_append,
      Bool.and_eq_true]
    refine ⟨?_, ih h.2⟩
    rw [List.all_eq_true]
    intro d hd
    exact escChar_noBr c d h.1 hd

theorem serStr_noBr (s : String) (h : s.data.all noBrChar = true) :
    (serStr s).all noBrChar = true := by
  rw [show serStr s = '"' :: (escList s.data ++ ['"']) from rfl]
  rw [List.all_cons, List.all_append, Bool.and_eq_true, Bool.and_eq_true]
  exact ⟨by decide, escList_noBr s.data h, by decide⟩

/-- The balance scan consumes a serialized bracket-free-string value
exactly, adding its length to whatever the scan of the remaining input
reports; entered with the closing bracket already expected on the
stack, the item and member walks close the container, ending the scan
exactly at its end when the outer stack is empty. -/
theorem scan_ser (f : Nat) :
    (∀ v stack rest, noBrV v = true → fuelNeed v ≤ f → stack ≠ [] →
      scanStack stack (serV v ++ rest) =
        Option.map (· + (serV v).length) (scanStack stack rest)) ∧
    (∀ e es stack rest, noBrV e = true → noBrL es = true → needElems e es ≤ f →
      scanStack (']' :: stack) (serItems e es ++ rest) =
        (if stack = [] then some (serItems e es).length
         else Option.map (· + (serItems e es).length) (scanStack stack rest))) ∧
    (∀ k v ps stack rest, (String.data k).all noBrChar = true → noBrV v = true →
      noBrP ps = true → needMembers (k, v) ps ≤ f →
      scanStack ('\x7d' :: stack) (serPairs (k, v) ps ++ rest) =
        (if stack = [] then some (serPairs (k, v) ps).length
         else Option.map (· + (serPairs (k, v) ps).length) (scanStack stack rest))) := by
  induction f with
  | zero =>
    refine ⟨?_, ?_, ?_⟩
    · intro v _ _ _ hf _
      have := fuelNeed_pos v
      omega
    · intro e es _ _ _ _ hf
      have := needElems_pos e es
      omega
    · intro k v ps _ _ _ _ _ hf
      have := needMembers_pos (k, v) ps
      omega
  | succ f ih =>
    obtain ⟨ihv, ihe, ihm⟩ := ih
    refine ⟨?_, ?_, ?_⟩
    · intro v stack rest hok hf hst
      cases v with
      | null =>
        rw [show serV .null = ['n', 'u', 'l', 'l'] from by simp [serV]]
        exact scanStack_append_skip _ stack rest (by decide)
      | bool b =>
        cases b with
        | false =>
          rw [show serV (.bool false) = ['f', 'a', 'l', 's', 'e'] from by simp [serV]]
          exact scanStack_append_skip _ stack rest (by decide)
        | true =>
          rw [show serV (.bool true) = ['t', 'r', 'u', 'e'] from by simp [serV]]
          exact scanStack_append_skip _ stack rest (by decide)
      | num n =>
        rw [show serV (.num n) = intToChars n from by simp [serV]]
        exact scanStack_append_skip _ stack rest (intToChars_noBr n)
      | str s =>
        rw [show serV (.str s) = serStr s from by simp [serV]]
        exact scanStack_append_skip _ stack rest
          (serStr_noBr s (by simpa [noBrV] using hok))
      | arr l =>
        cases l with
        | nil =>
          rw [show serV (.arr []) = ['[', ']'] from by simp [serV]]
          rw [show (['[', ']'] ++ rest : List Char) = '[' :: ']' :: rest from rfl]
          rw [scanStack_open_sq, scanStack_close_sq, if_neg hst]
          cases scanStack stack rest <;> simp [serV]
        | cons e es =>
          have hok2 : noBrV e = true ∧ noBrL es = true := by
            have h1 : noBrL (e :: es) = true := by simpa [noBrV] using hok
            simpa [noBrL, Bool.and_eq_true] using h1
          have hf2 : needElems e es ≤ f := by
            have h1 : fuelNeed (.arr (e :: es)) = 1 + needElems e es := by simp [fuelNeed]
            omega
          rw [show serV (.arr (e :: es)) = '[' :: serItems e es from by simp [serV],
            List.cons_append, scanStack_open_sq,
            ihe e es stack rest hok2.1 hok2.2 hf2, if_neg hst]
          cases scanStack stack rest <;> simp <;> omega
      | obj l =>
        cases l with
        | nil =>
          rw [show serV (.obj []) = ['\x7b', '\x7d'] from by simp [serV]]
          rw [show (['\x7b', '\x7d'] ++ rest : List Char) = '\x7b' :: '\x7d' :: rest from rfl]
          rw [scanStack_open_br, scanStack_close_br, if_neg hst]
          cases scanStack stack rest <;> simp [serV]
        | cons p ps =>
          obtain ⟨k, v2⟩ := p
          have hok2 : (String.data k).all noBrChar = true ∧ noBrV v2 = true ∧
              noBrP ps = true := by
            have h1 : noBrP ((k, v2) :: ps) = true := by simpa [noBrV] using hok
            simpa [noBrP, Bool.and_eq_true, and_assoc] using h1
          have hf2 : needMembers (k, v2) ps ≤ f := by
            have h1 : fuelNeed (.obj ((k, v2) :: ps)) = 1 + needMembers (k, v2) ps := by
              simp [fuelNeed]
            omega
          rw [show serV (.obj ((k, v2) :: ps)) = '\x7b' :: serPairs (k, v2) ps from
              by simp [serV],
            List.cons_append, scanStack_open_br,
            ihm k v2 ps stack rest hok2.1 hok2.2.1 hok2.2.2 hf2, if_neg hst]
          cases scanStack stack rest <;> simp <;> omega
    · intro e es stack rest hoke hokes hf
      cases es with
      | nil =>
        have hf2 : fuelNeed e ≤ f := by
          have h1 : needElems e [] = 1 + fuelNeed e := by simp [needElems]
          omega
        rw [show serItems e [] = serV e ++ [']'] from by simp [serItems],
          List.append_assoc,
          ihv e (']' :: stack) ((([']'] : List Char)) ++ rest) hoke hf2 (by simp),
          show (([']'] : List Char) ++ rest) = ']' :: rest from rfl,
          scanStack_close_sq]
        split
        · simp
          omega
        · cases scanStack stack rest <;> simp <;> omega
      | cons e2 es2 =>
        have hok2 : noBrV e2 = true ∧ noBrL es2 = true := by
          simpa [noBrL, Bool.and_eq_true] using hokes
        have hfe : fuelNeed e ≤ f ∧ needElems e2 es2 ≤ f := by
          have h1 : needElems e (e2 :: es2) = 1 + fuelNeed e + needElems e2 es2 := by
            simp [needElems]
          have h2 := fuelNeed_pos e
          have h3 := needElems_pos e2 es2
          omega
        rw [show serItems e (e2 :: es2) = serV e ++ ',' :: ' ' :: serItems e2 es2 from
            by simp [serItems],
          List.append_assoc,
          ihv e (']' :: stack) (',' :: ' ' :: serItems e2 es2 ++ rest) hoke hfe.1 (by simp),
          show ((',' :: ' ' :: serItems e2 es2 : List Char) ++ rest) =
            ',' :: ' ' :: (serItems e2 es2 ++ rest) from rfl,
          scanStack_cons_skip _ ',' _ (by decide),
          scanStack_cons_skip _ ' ' _ (by decide),
          ihe e2 es2 stack rest hok2.1 hok2.2 hfe.2]
        split
        · simp
          omega
        · cases scanStack stack rest <;> simp <;> omega
    · intro k v ps stack rest hokk hokv hokps hf
      cases ps with
      | nil =>
        have hf2 : fuelNeed v ≤ f := by
          have h1 : needMembers (k, v) [] = 1 + fuelNeed v := by simp [needMembers]
          omega
        rw [show (serPairs (k, v) [] ++ rest : List Char) =
            serStr k ++ ':' :: ' ' :: (serV v ++ ('\x7d' :: rest)) from by simp [serPairs],
          scanStack_append_skip (serStr k) _ _ (serStr_noBr k hokk),
          scanStack_cons_skip _ ':' _ (by decide),
          scanStack_cons_skip _ ' ' _ (by decide),
          ihv v ('\x7d' :: stack) ('\x7d' :: rest) hokv hf2 (by simp),
          scanStack_close_br]
        split
        · simp [serPairs]
          omega
        · cases scanStack stack rest <;> simp [serPairs] <;> omega
      | cons p2 ps2 =>
        obtain ⟨k2, v2⟩ := p2
        have hok2 : (String.data k2).all noBrChar = true ∧ noBrV v2 = true ∧
            noBrP ps2 = true := by
          simpa [noBrP, Bool.and_eq_true, and_assoc] using hokps
        have hfm : fuelNeed v ≤ f ∧ needMembers (k2, v2) ps2 ≤ f := by
          have h1 : needMembers (k, v) ((k2, v2) :: ps2) =
              1 + fuelNeed v + needMembers (k2, v2) ps2 := by
            simp [needMembers]
          have h2 := fuelNeed_pos v
          have h3 := needMembers_pos (k2, v2) ps2
          omega
        rw [show (serPairs (k, v) ((k2, v2) :: ps2) ++ rest : List Char) =
            serStr k ++ ':' :: ' ' :: (serV v ++ (',' :: ' ' ::
              (serPairs (k2, v2) ps2 ++ rest))) from by simp [serPairs],
          scanStack_append_skip (serStr k) _ _ (serStr_noBr k hokk),
          scanStack_cons_skip _ ':' _ (by decide),
          scanStack_cons_skip _ ' ' _ (by decide),
          ihv v ('\x7d' :: stack) (',' :: ' ' :: (serPairs (k2, v2) ps2 ++ rest)) hokv
            hfm.1 (by simp),
          scanStack_cons_skip _ ',' _ (by decide),
          scanStack_cons_skip _ ' ' _ (by decide),
          ihm k2 v2 ps2 stack rest hok2.1 hok2.2.1 hok2.2.2 hfm.2]
        split
        · simp [serPairs]
          omega
        · cases scanStack stack rest <;> simp [serPairs] <;> omega

/-- Started on an empty stack at the opening bracket of a serialized
container whose strings are bracket-free, the balance scan stops
exactly at the closing bracket, reporting the serialization's length. -/
theorem scanStack_serV_top (v : JVal) (rest : List Char)
    (hc : isContainer v = true) (hb : noBrV v = true) :
    scanStack [] (serV v ++ rest) = some (serV v).length := by
  cases v with
  | null => simp [isContainer] at hc
  | bool b => simp [isContainer] at hc
  | num n => simp [isContainer] at hc
  | str s => simp [isContainer] at hc
  | arr l =>
    cases l with
    | nil =>
      rw [show serV (.arr []) = ['[', ']'] from by simp [serV],
        show (['[', ']'] ++ rest : List Char) = '[' :: ']' :: rest from rfl,
        scanStack_open_sq, scanStack_close_sq, if_pos rfl]
      rfl
    | cons e es =>
      have hok2 : noBrV e = true ∧ noBrL es = true := by
        have h1 : noBrL (e :: es) = true := by simpa [noBrV] using hb
        simpa [noBrL, Bool.and_eq_true] using h1
      rw [show serV (.arr (e :: es)) = '[' :: serItems e es from by simp [serV],
        List.cons_append, scanStack_open_sq,
        (scan_ser (needElems e es)).2.1 e es [] rest hok2.1 hok2.2 le_rfl, if_pos rfl]
      rfl
  | obj l =>
    cases l with
    | nil =>
      rw [show serV (.obj []) = ['\x7b', '\x7d'] from by simp [serV],
        show (['\x7b', '\x7d'] ++ rest : List Char) = '\x7b' :: '\x7d' :: rest from rfl,
        scanStack_open_br, scanStack_close_br, if_pos rfl]
      rfl
    | cons p ps =>
      obtain ⟨k, v2⟩ := p
      have hok2 : (String.data k).all noBrChar = true ∧ noBrV v2 = true ∧
          noBrP ps = true := by
        have h1 : noBrP ((k, v2) :: ps) = true := by simpa [noBrV] using hb
        simpa [noBrP, Bool.and_eq_true, and_assoc] using h1
      rw [show serV (.obj ((k, v2) :: ps)) = '\x7b' :: serPairs (k, v2) ps from
          by simp [serV],
        List.cons_append, scanStack_open_br,
        (scan_ser (needMembers (k, v2) ps)).2.2 k v2 ps [] rest hok2.1 hok2.2.1 hok2.2.2
          le_rfl, if_pos rfl]
      rfl

/-- The head character of a serialized container is its opening
bracket. -/
theorem serV_container_head (v : JVal) (hc : isContainer v = true) :
    (∃ t, serV v = '[' :: t) ∨ (∃ t, serV v = '\x7b' :: t) := by
  cases v with
  | null => simp [isContainer] at hc
  | bool b => simp [isContainer] at hc
  | num n => simp [isContainer] at hc
  | str s => simp [isContainer] at hc
  | arr l =>
    cases l with
    | nil => exact Or.inl ⟨[']'], by simp [serV]⟩
    | cons e es => exact Or.inl ⟨serItems e es, by simp [serV]⟩
  | obj l =>
    cases l with
    | nil => exact Or.inr ⟨['\x7d'], by simp [serV]⟩
    | cons p ps => exact Or.inr ⟨serPairs p ps, by simp [serV]⟩

/-- On noise whose prefix holds no opening bracket followed by a
serialized bracket-free-string container, the extractor returns
exactly the serialization. -/
theorem extractJsonPayload_noise (n1 n2 : List Char) (v : JVal)
    (hn1 : n1.all (fun c => !((c = '[' : Bool) || (c = '\x7b' : Bool))) = true)
    (hc : isContainer v = true) (hb : noBrV v = true) :
    extractJsonPayload (n1 ++ serV v ++ n2) = some (serV v) := by
  have hn1a : ∀ c ∈ n1, ((c = '[' : Bool)) = false := by
    intro c hcm
    have h0 := List.all_eq_true.mp hn1 c hcm
    simp only [Bool.not_eq_eq_eq_not, Bool.not_true, Bool.or_eq_false_iff] at h0
    exact h0.1
  have hn1b : ∀ c ∈ n1, ((c = '\x7b' : Bool)) = false := by
    intro c hcm
    have h0 := List.all_eq_true.mp hn1 c hcm
    simp only [Bool.not_eq_eq_eq_not, Bool.not_true, Bool.or_eq_false_iff] at h0
    exact h0.2
  have hext : ∀ m : Nat, m = n1.length →
      extractFrom (n1 ++ (serV v ++ n2)) m = some (serV v) := by
    intro m hm
    subst hm
    unfold extractFrom
    rw [List.drop_left n1 (serV v ++ n2), scanStack_serV_top v n2 hc hb]
    show some ((serV v ++ n2).take (serV v).length) = some (serV v)
    rw [List.take_left (serV v) n2]
  have hfa := findIdx_append_skip (fun c => (c = '[' : Bool)) n1 (serV v ++ n2) hn1a
  have hfb := findIdx_append_skip (fun c => (c = '\x7b' : Bool)) n1 (serV v ++ n2) hn1b
  rw [List.append_assoc n1 (serV v) n2]
  unfold extractJsonPayload
  rcases serV_container_head v hc with ⟨t, ht⟩ | ⟨t, ht⟩
  · have h1 : (serV v ++ n2).findIdx? (fun c => (c = '[' : Bool)) = some 0 := by
      rw [ht, List.cons_append, List.findIdx?_cons, if_pos (by simp)]
    rw [hfa, hfb, h1]
    cases hb2 : (serV v ++ n2).findIdx? (fun c => (c = '\x7b' : Bool)) with
    | none =>
      simp only [Option.map_some', Option.map_none', Nat.zero_add]
      exact hext _ rfl
    | some b =>
      simp only [Option.map_some', Nat.zero_add]
      exact hext _ (Nat.min_eq_left (Nat.le_add_left n1.length b))
  · have h1 : (serV v ++ n2).findIdx? (fun c => (c = '\x7b' : Bool)) = some 0 := by
      rw [ht, List.cons_append, List.findIdx?_cons, if_pos (by simp)]
    rw [hfa, hfb, h1]
    cases hb2 : (serV v ++ n2).findIdx? (fun c => (c = '[' : Bool)) with
    | none =>
      simp only [Option.map_some', Option.map_none', Nat.zero_add]
      exact hext _ rfl
    | some b =>
      simp only [Option.map_some', Nat.zero_add]
      exact hext _ (Nat.min_eq_right (Nat.le_add_left n1.length b))

/-- The head of a dropWhile result falsifies the predicate. -/
theorem dropWhile_head_false (p : Char → Bool) (l : List Char) (c : Char) (t : List Char)
    (h : l.dropWhile p = c :: t) : p c = false := by
  induction l with
  | nil => simp at h
  | cons d r ih =>
    rw [List.dropWhile_cons] at h
    split at h
    · exact ih h
    · injection h with h1 _
      subst h1
      simp_all

/-- Removing trailing whitespace keeps the head character. -/
theorem dropTrailingWs_head (c : Char) (t l : List Char)
    (h : dropTrailingWs l = c :: t) : ∃ t2, l = c :: t2 := by
  cases l with
  | nil => simp [dropTrailingWs] at h
  | cons d r =>
    rw [show dropTrailingWs (d :: r) =
      (if dropTrailingWs r = [] ∧ isPyWs d then [] else d :: dropTrailingWs r) from rfl] at h
    split at h
    · cases h
    · injection h with h1 _
      exact ⟨r, by rw [h1]⟩

/-- The head of a stripped nonempty string is not whitespace. -/
theorem pyStrip_head (l : List Char) (c : Char) (t : List Char)
    (h : pyStrip l = c :: t) : isPyWs c = false := by
  unfold pyStrip at h
  obtain ⟨t2, ht2⟩ := dropTrailingWs_head c t _ h
  exact dropWhile_head_false isPyWs l c t2 ht2

/-- On input whose head is not whitespace, _find_json_start reports
index zero. -/
theorem findJsonStart_cons (c : Char) (t : List Char) (h : isPyWs c = false) :
    findJsonStart (c :: t) = 0 := by
  unfold findJsonStart
  rw [show findJsonStartAux (c :: t) 0 =
    (if c = '\x7b' ∨ c = '[' then 0
     else if isPyWs c then findJsonStartAux t (0 + 1)
     else 0) from rfl]
  split
  · rfl
  · rw [h]
    rfl

/-- The scanner rejects any input whose head cannot begin a value. -/
theorem parseVal_notValueStart (f : Nat) (c : Char) (cs : List Char)
    (h : isValueStart c = false) : parseVal f (c :: cs) = none := by
  simp only [isValueStart, Bool.decide_or, Bool.or_eq_false_iff, decide_eq_false_iff_not]
    at h
  obtain ⟨h1, h2, h3, h4, h5, h6, h7, h8⟩ := h
  cases f with
  | zero => rfl
  | succ f =>
    rw [parseVal_succ, if_neg h1, if_neg h2, if_neg h3, if_neg h4, if_neg h5, if_neg h6,
      if_neg (by simp [h7, h8])]

/-- raw_decode fails outright when the first character cannot begin a
value. -/
theorem rawDecode_notValueStart (c : Char) (cs : List Char)
    (h : isValueStart c = false) : rawDecode (c :: cs) = none := by
  unfold rawDecode
  rw [parseVal_notValueStart _ c cs h]

/-- Containers put no constraint on the following text. -/
theorem numOk_container (v : JVal) (hc : isContainer v = true) (rest : List Char) :
    numOk v rest := by
  cases v <;> first | trivial | simp [isContainer] at hc

/-- raw_decode recovers a serialized value placed before benign text. -/
theorem rawDecode_serV (v : JVal) (rest : List Char) (h1 : strOkV v = true)
    (hnum : numOk v rest) : rawDecode (serV v ++ rest) = some v := by
  unfold rawDecode
  have hfuel : fuelNeed v ≤ (serV v ++ rest).length + 1 := by
    have ha := fuelNeed_le_length v
    have hb : (serV v ++ rest).length = (serV v).length + rest.length := by simp
    omega
  rw [(parse_ser_rt ((serV v ++ rest).length + 1)).1 v rest h1 hfuel hnum]

/-- Unfolding of the capture_json branch with its lets substituted. -/
theorem captureJson_eq (s : String) :
    captureJson s =
      (if pyStrip s.data = [] then JOut.json (.obj []) else
        match rawDecode ((pyStrip s.data).drop (findJsonStart (pyStrip s.data))) with
        | some v => .json v
        | none =>
          match extractJsonPayload ((pyStrip s.data).drop (findJsonStart (pyStrip s.data)))
            with
          | some cleaned =>
            match rawDecode cleaned with
            | some v => .json v
            | none => .text ((pyStrip s.data).drop (findJsonStart (pyStrip s.data)))
          | none => .text ((pyStrip s.data).drop (findJsonStart (pyStrip s.data)))) := rfl

/-- C1 (amended): the structured-output path recovers an embedded
well-formed json container from surrounding noise only under side
conditions: the container's strings survive the round trip and hold no
bracket characters, the leading noise holds no opening bracket, and
the leading noise is empty or starts with a character that cannot
begin a json value.  Under those conditions the decoded value is
returned exactly. -/
theorem c1_noiseExtraction (s : String) (n1 n2 : List Char) (v : JVal)
    (hsplit : pyStrip s.data = n1 ++ serV v ++ n2)
    (hcont : isContainer v = true)
    (hnobr : noBrV v = true)
    (hstr : strOkV v = true)
    (hn1 : n1.all (fun c => !((c = '[' : Bool) || (c = '\x7b' : Bool))) = true)
    (hlead : n1 = [] ∨ ∃ c t, n1 = c :: t ∧ isValueStart c = false) :
    captureJson s = .json v := by
  rcases hlead with rfl | ⟨c, t, rfl, hvs⟩
  · rw [List.nil_append] at hsplit
    obtain ⟨b, tb, hb, _, _⟩ := serV_head v
    have hdata : pyStrip s.data = b :: (tb ++ n2) := by
      rw [hsplit, hb, List.cons_append]
    have hws := pyStrip_head s.data b (tb ++ n2) hdata
    have hEq : (b :: (tb ++ n2) : List Char) = serV v ++ n2 := by
      rw [hb, List.cons_append]
    rw [captureJson_eq, hdata, if_neg (by simp), findJsonStart_cons b (tb ++ n2) hws,
      List.drop_zero, hEq, rawDecode_serV v n2 hstr (numOk_container v hcont n2)]
  · have hdata : pyStrip s.data = c :: ((t ++ serV v) ++ n2) := by
      rw [hsplit]
      simp
    have hws := pyStrip_head s.data c _ hdata
    have hrd : rawDecode (serV v) = some v := by
      have h0 := rawDecode_serV v [] hstr (numOk_container v hcont [])
      rwa [List.append_nil] at h0
    rw [captureJson_eq, hdata, if_neg (by simp), findJsonStart_cons c _ hws,
      List.drop_zero, rawDecode_notValueStart c _ hvs,
      show (c :: ((t ++ serV v) ++ n2) : List Char) = (c :: t) ++ serV v ++ n2 from by simp,
      extractJsonPayload_noise (c :: t) n2 v hn1 hcont hnobr]
    show (match rawDecode (serV v) with
      | some v2 => JOut.json v2
      | none => JOut.text ((c :: t) ++ serV v ++ n2)) = JOut.json v
    rw [hrd]

/-- C1 counterexample: the input holds the well-formed json object
with key a and value 1 (second conjunct), preceded by the noise
characters open-bracket and x, yet the structured-output path returns
the text unchanged rather than the embedded value: the balance scan
trips over the bracket inside the noise. -/
theorem c1_counterexample :
    captureJson (String.mk (['[', 'x'] ++ ['\x7b', '"', 'a', '"', ':', ' ', '1', '\x7d'])) =
      JOut.text (['[', 'x'] ++ ['\x7b', '"', 'a', '"', ':', ' ', '1', '\x7d']) ∧
    rawDecode ['\x7b', '"', 'a', '"', ':', ' ', '1', '\x7d'] =
      some (JVal.obj [(String.mk ['a'], JVal.num 1)]) :=
  ⟨rfl, rfl⟩

/-- Witness for the amended C1: noise W, exclamation mark and space
before a serialized object is stripped away and the object decoded. -/
theorem c1_witness :
    captureJson (String.mk ['W', '!', ' ', '\x7b', '"', 'a', '"', ':', ' ', '1', '\x7d']) =
      JOut.json (JVal.obj [(String.mk ['a'], JVal.num 1)]) := by
  have hser : serV (JVal.obj [(String.mk ['a'], JVal.num 1)]) =
      ['\x7b', '"', 'a', '"', ':', ' ', '1', '\x7d'] := by
    simp [serV, serPairs, serStr, escList, escChar, intToChars, natToChars_eq]
    decide
  exact c1_noiseExtraction _ ['W', '!', ' '] [] _
    (by rw [hser]; decide) rfl (by simp [noBrV, noBrP, noBrChar]) (by simp [strOkV, strOkP, strOkChar])
    (by decide) (Or.inr ⟨'W', ['!', ' '], rfl, by decide⟩)

/-- C5 (amended): when the direct decode of the stripped output fails
and the bracket-balance extraction yields nothing decodable, the
structured-output path returns the stripped text (not the raw text)
unchanged; and on any text without bracket characters the extractor
finds nothing at all. -/
theorem c5_malformedReturnsText (s : String) (cs : List Char)
    (hne : pyStrip s.data ≠ [])
    (hdec : rawDecode (pyStrip s.data) = none)
    (hext : ∀ cl, extractJsonPayload (pyStrip s.data) = some cl → rawDecode cl = none)
    (hnb : cs.all noBrChar = true) :
    captureJson s = .text (pyStrip s.data) ∧ extractJsonPayload cs = none := by
  constructor
  · obtain ⟨c0, t0, hdata⟩ := List.exists_cons_of_ne_nil hne
    have hfj : findJsonStart (pyStrip s.data) = 0 := by
      rw [hdata]
      exact findJsonStart_cons c0 t0 (pyStrip_head s.data c0 t0 hdata)
    rw [captureJson_eq, if_neg hne, hfj, List.drop_zero, hdec]
    cases hE : extractJsonPayload (pyStrip s.data) with
    | none => rfl
    | some cl =>
      show (match rawDecode cl with
        | some v => JOut.json v
        | none => JOut.text (pyStrip s.data)) = JOut.text (pyStrip s.data)
      rw [hext cl hE]
  · have ha : cs.findIdx? (fun c => (c = '[' : Bool)) = none :=
      findIdx_none _ cs (fun c hc => by
        simp [(noBrChar_facts c (List.all_eq_true.mp hnb c hc)).1])
    have hb2 : cs.findIdx? (fun c => (c = '\x7b' : Bool)) = none :=
      findIdx_none _ cs (fun c hc => by
        simp [(noBrChar_facts c (List.all_eq_true.mp hnb c hc)).2.2.1])
    unfold extractJsonPayload
    rw [ha, hb2]

/-- C5 counterexample: the input 42 holds no bracket character at all,
yet the structured-output path returns the decoded number 42, not the
text: a bare json scalar decodes directly without any bracket. -/
theorem c5_counterexample :
    (['4', '2'].all noBrChar = true) ∧
    captureJson (String.mk ['4', '2']) = JOut.json (JVal.num 42) :=
  ⟨by decide, rfl⟩

/-- Witness for the amended C5: an unbalanced bracket input falls all
the way through to the text fallback, and bracket-free text yields no
extraction. -/
theorem c5_witness :
    captureJson (String.mk ['[', '1', ',', ' ', '2']) =
      JOut.text (pyStrip (String.data (String.mk ['[', '1', ',', ' ', '2']))) ∧
    extractJsonPayload ['a'] = none :=
  c5_malformedReturnsText (String.mk ['[', '1', ',', ' ', '2']) ['a']
    (by decide) rfl
    (fun cl h => by
      rw [show extractJsonPayload
        (pyStrip (String.data (String.mk ['[', '1', ',', ' ', '2']))) = none from rfl] at h
      cases h)
    (by decide)
